import Mathlib

/-!
# Verification of mp3rgain against its specification

Shallow embedding of the mp3rgain library (Rust) in Lean 4, together with
theorems settling the frozen claims about its specification.

Conventions of the embedding:
* A file buffer (`Vec<u8>`) is a `List Nat` of byte values; the predicate
  `ByteVec` states that each element is below 256, which the Rust `u8` type
  guarantees.  Definitions are faithful to the source for byte inputs; the
  theorems carry `ByteVec` hypotheses where the modelling relies on it.
* Rust bit operations on `u8`/`u32` are modelled arithmetically: `x >> k` is
  `x / 2^k`, `(x << k) as u8` is a `%`/`*` combination, `x & mask` for the
  masks appearing in the source is the matching `%`/`/` combination, and
  `a | b` on operands with disjoint bit ranges is `a + b`.
* Saturating `u8` arithmetic is `min _ 255` and truncated subtraction.
* Fallible operations return `Option`/`Except`; in-place mutation is explicit
  state passing of the buffer; file read/write I/O is elided, so a function
  that rewrites a file maps the old buffer to the new buffer.
* Loops are modelled by fuel-indexed recursion; the fuel passed by the
  wrappers dominates the loop's variant, so the model never exhausts it.
-/

namespace Mp3rgain

/-- All entries of a byte buffer are valid `u8` values. -/
def ByteVec (data : List Nat) : Prop := ∀ b ∈ data, b < 256

instance : DecidablePred ByteVec := fun data =>
  inferInstanceAs (Decidable (∀ b ∈ data, b < 256))

/-- Byte at index `i` of the buffer (indexing is always guarded in the
source, so the default value is never observed by a faithful caller). -/
def byteAt (data : List Nat) (i : Nat) : Nat := data.getD i 0

/-!
## BitField codec (`read_gain_at` / `write_gain_at`, src/lib.rs 292-331)
-/

/-- Location of a `global_gain` field within the file
(struct `GainLocation`, src/lib.rs 246-250). -/
structure GainLocation where
  byteOffset : Nat
  bitOffset : Nat
  deriving Repr, DecidableEq

/-- `read_gain_at` (src/lib.rs 292-308): read an 8-bit value at a
bit-unaligned position.  `(data[idx] << shift) as u8` is modelled as
`byteAt data idx % 2^(8-shift) * 2^shift` (the surviving low bits moved up),
`data[idx+1] >> (8 - shift)` as a division, and the `|` of the two disjoint
parts as `+`. -/
def readGainAt (data : List Nat) (loc : GainLocation) : Nat :=
  if loc.byteOffset ≥ data.length then 0
  else if loc.bitOffset = 0 then byteAt data loc.byteOffset
  else if loc.byteOffset + 1 < data.length then
    byteAt data loc.byteOffset % 2 ^ (8 - loc.bitOffset) * 2 ^ loc.bitOffset
      + byteAt data (loc.byteOffset + 1) / 2 ^ (8 - loc.bitOffset)
  else
    byteAt data loc.byteOffset % 2 ^ (8 - loc.bitOffset) * 2 ^ loc.bitOffset

/-- `write_gain_at` (src/lib.rs 311-331): write an 8-bit value at a
bit-unaligned position.  `data[idx] & mask_high` (`mask_high = 0xFF << (8 -
shift)`) keeps the high `shift` bits, modelled as `b / 2^(8-shift) *
2^(8-shift)`; `data[idx+1] & mask_low` (`mask_low = 0xFF >> shift`) keeps the
low `8-shift` bits, modelled as `b % 2^(8-shift)`; `value >> shift` and
`(value << (8-shift)) as u8` are the matching div/mod-shift combinations, and
each `|` of disjoint parts is `+`. -/
def writeGainAt (data : List Nat) (loc : GainLocation) (value : Nat) : List Nat :=
  if loc.byteOffset ≥ data.length then data
  else if loc.bitOffset = 0 then data.set loc.byteOffset value
  else if loc.byteOffset + 1 < data.length then
    (data.set loc.byteOffset
        (byteAt data loc.byteOffset / 2 ^ (8 - loc.bitOffset) * 2 ^ (8 - loc.bitOffset)
          + value / 2 ^ loc.bitOffset)).set (loc.byteOffset + 1)
      (byteAt data (loc.byteOffset + 1) % 2 ^ (8 - loc.bitOffset)
        + value % 2 ^ loc.bitOffset * 2 ^ (8 - loc.bitOffset))
  else
    data.set loc.byteOffset
      (byteAt data loc.byteOffset / 2 ^ (8 - loc.bitOffset) * 2 ^ (8 - loc.bitOffset)
        + value / 2 ^ loc.bitOffset)

/-!
## Frame scanner (`parse_header` / `skip_id3v2` / frame loop, src/lib.rs 68-385)
-/

/-- MPEG version (enum `MpegVersion`, src/lib.rs 70-74). -/
inductive MpegVersion where
  | mpeg1
  | mpeg2
  | mpeg25
  deriving Repr, DecidableEq

/-- Channel mode (enum `ChannelMode`, src/lib.rs 88-93). -/
inductive ChannelMode where
  | stereo
  | jointStereo
  | dualChannel
  | mono
  deriving Repr, DecidableEq

/-- `ChannelMode::channel_count` (src/lib.rs 96-101). -/
def ChannelMode.channelCount : ChannelMode → Nat
  | .mono => 1
  | _ => 2

/-- Parsed MP3 frame header (struct `FrameHeader`, src/lib.rs 116-124). -/
structure FrameHeader where
  version : MpegVersion
  hasCrc : Bool
  bitrateKbps : Nat
  sampleRate : Nat
  padding : Bool
  channelMode : ChannelMode
  frameSize : Nat
  deriving Repr, DecidableEq

/-- `FrameHeader::granule_count` (src/lib.rs 127-132). -/
def FrameHeader.granuleCount (h : FrameHeader) : Nat :=
  match h.version with
  | .mpeg1 => 2
  | _ => 1

/-- `FrameHeader::side_info_offset` (src/lib.rs 134-140). -/
def FrameHeader.sideInfoOffset (h : FrameHeader) : Nat :=
  if h.hasCrc then 6 else 4

/-- `BITRATE_TABLE_MPEG1_L3` (src/lib.rs 144-146). -/
def bitrateTableMpeg1L3 : List Nat :=
  [0, 32, 40, 48, 56, 64, 80, 96, 112, 128, 160, 192, 224, 256, 320]

/-- `BITRATE_TABLE_MPEG2_L3` (src/lib.rs 149-150). -/
def bitrateTableMpeg2L3 : List Nat :=
  [0, 8, 16, 24, 32, 40, 48, 56, 64, 80, 96, 112, 128, 144, 160]

/-- `SAMPLE_RATE_TABLE` (src/lib.rs 153-157). -/
def sampleRateTable : List (List Nat) :=
  [[44100, 48000, 32000], [22050, 24000, 16000], [11025, 12000, 8000]]

/-- Construct the `FrameHeader` that `parse_header` (src/lib.rs 160-243)
returns from the decoded header fields.  The table lookups and the frame-size
formula are the source's lines 194-232. -/
def mkFrameHeader (version : MpegVersion) (hasCrc : Bool) (bitrateIndex : Nat)
    (srIndex : Nat) (padding : Bool) (channelMode : ChannelMode) : FrameHeader :=
  let bitrateKbps := match version with
    | .mpeg1 => bitrateTableMpeg1L3.getD bitrateIndex 0
    | _ => bitrateTableMpeg2L3.getD bitrateIndex 0
  let versionIndex := match version with
    | .mpeg1 => 0
    | .mpeg2 => 1
    | .mpeg25 => 2
  let sampleRate := (sampleRateTable.getD versionIndex []).getD srIndex 0
  let samplesPerFrame := match version with
    | .mpeg1 => 1152
    | _ => 576
  let paddingSize := if padding then 1 else 0
  { version := version
    hasCrc := hasCrc
    bitrateKbps := bitrateKbps
    sampleRate := sampleRate
    padding := padding
    channelMode := channelMode
    frameSize := samplesPerFrame * bitrateKbps * 125 / sampleRate + paddingSize }

/-- `parse_header` (src/lib.rs 160-243) reading the four header bytes at
position `pos` of the buffer.  Bit extractions `(b >> k) & m` are modelled as
`b / 2^k % (m+1)`; the sync test `header[1] & 0xE0 == 0xE0` is
`b1 / 32 % 8 = 7`. -/
def parseHeader (data : List Nat) (pos : Nat) : Option FrameHeader :=
  if data.length < pos + 4 then none
  else if byteAt data pos ≠ 255 ∨ byteAt data (pos + 1) / 32 % 8 ≠ 7 then none
  else if byteAt data (pos + 1) / 8 % 4 = 1 then none
  else if byteAt data (pos + 1) / 2 % 4 ≠ 1 then none
  else if byteAt data (pos + 2) / 16 % 16 = 0 ∨ byteAt data (pos + 2) / 16 % 16 = 15 then none
  else if byteAt data (pos + 2) / 4 % 4 = 3 then none
  else
    some (mkFrameHeader
      (if byteAt data (pos + 1) / 8 % 4 = 0 then MpegVersion.mpeg25
        else if byteAt data (pos + 1) / 8 % 4 = 2 then MpegVersion.mpeg2
        else MpegVersion.mpeg1)
      (byteAt data (pos + 1) % 2 = 0)
      (byteAt data (pos + 2) / 16 % 16)
      (byteAt data (pos + 2) / 4 % 4)
      (byteAt data (pos + 2) / 2 % 2 ≠ 0)
      (if byteAt data (pos + 3) / 64 % 4 = 0 then ChannelMode.stereo
        else if byteAt data (pos + 3) / 64 % 4 = 1 then ChannelMode.jointStereo
        else if byteAt data (pos + 3) / 64 % 4 = 2 then ChannelMode.dualChannel
        else ChannelMode.mono))

/-- `bits_before_granules` of `calculate_gain_locations`
(src/lib.rs 260-265). -/
def bitsBeforeGranules (h : FrameHeader) : Nat :=
  match h.version, h.channelMode.channelCount with
  | .mpeg1, 1 => 18
  | .mpeg1, _ => 20
  | _, 1 => 9
  | _, _ => 10

/-- `bits_per_granule_channel` of `calculate_gain_locations`
(src/lib.rs 267-270). -/
def bitsPerGranuleChannel (h : FrameHeader) : Nat :=
  match h.version with
  | .mpeg1 => 59
  | _ => 63

/-- `calculate_gain_locations` (src/lib.rs 253-289): the `global_gain` bit of
granule `gr`, channel `ch` sits 21 bits into its granule-channel block. -/
def calculateGainLocations (frameOffset : Nat) (h : FrameHeader) : List GainLocation :=
  (List.range h.granuleCount).flatMap fun gr =>
    (List.range h.channelMode.channelCount).map fun ch =>
      { byteOffset := frameOffset + h.sideInfoOffset
          + (bitsBeforeGranules h
              + (gr * h.channelMode.channelCount + ch) * bitsPerGranuleChannel h + 21) / 8
        bitOffset := (bitsBeforeGranules h
              + (gr * h.channelMode.channelCount + ch) * bitsPerGranuleChannel h + 21) % 8 }

/-- `skip_id3v2` (src/lib.rs 334-345): `b"ID3"` is bytes 73, 68, 51; the
synchsafe size uses the low 7 bits (`& 0x7F` = `% 128`) of bytes 6-9. -/
def skipId3v2 (data : List Nat) : Nat :=
  if data.length < 10 ∨ ¬ (byteAt data 0 = 73 ∧ byteAt data 1 = 68 ∧ byteAt data 2 = 51) then 0
  else
    10 + (byteAt data 6 % 128 * 2 ^ 21 + byteAt data 7 % 128 * 2 ^ 14
      + byteAt data 8 % 128 * 2 ^ 7 + byteAt data 9 % 128)

/-- The frame-acceptance test shared by `iterate_frames` (src/lib.rs 365-370)
and the loop of `apply_gain` (src/lib.rs 469-474): the computed next position
must start with a sync word, or — at the end of the buffer — must not exceed
the buffer length. -/
def validFrameAt (data : List Nat) (nextPos : Nat) : Prop :=
  if nextPos + 2 ≤ data.length then
    byteAt data nextPos = 255 ∧ byteAt data (nextPos + 1) / 32 % 8 = 7
  else
    nextPos ≤ data.length

instance (data : List Nat) (nextPos : Nat) : Decidable (validFrameAt data nextPos) := by
  unfold validFrameAt; infer_instance

/-- The frame-scanning loop of `iterate_frames` (src/lib.rs 348-385),
returning the list of accepted `(frame start offset, header)` pairs.  `fuel`
dominates the number of loop iterations; every caller passes at least
`data.length + 1`, which the loop can never exhaust since the position
strictly increases. -/
def scanFrom (data : List Nat) : Nat → Nat → List (Nat × FrameHeader)
  | 0, _ => []
  | fuel + 1, pos =>
    if pos + 4 ≤ data.length then
      match parseHeader data pos with
      | none => scanFrom data fuel (pos + 1)
      | some h =>
        let next := pos + h.frameSize
        if validFrameAt data next then (pos, h) :: scanFrom data fuel next
        else scanFrom data fuel (pos + 1)
    else []

/-- All frames of the buffer, as scanned by `iterate_frames`
(src/lib.rs 348-385) starting after a leading ID3v2 tag. -/
def scanFrames (data : List Nat) : List (Nat × FrameHeader) :=
  scanFrom data (data.length + 1) (skipId3v2 data)

/-- All `global_gain` locations of the buffer, in scan order. -/
def gainLocations (data : List Nat) : List GainLocation :=
  (scanFrames data).flatMap fun ph => calculateGainLocations ph.1 ph.2

/-- All `global_gain` field values of the buffer, in scan order. -/
def gainValues (data : List Nat) : List Nat :=
  (gainLocations data).map (readGainAt data)

/-!
## Gain codec (`apply_gain`, src/lib.rs 448-501)
-/

/-- The new gain value computed by `apply_gain` (src/lib.rs 485-489) from the
current value and the `i32` step count: `saturating_add(gain_steps.min(255) as
u8)` for positive steps, `saturating_sub((-gain_steps).min(255) as u8)`
otherwise.  `-gain_steps` is the wrapping `i32` negation (so `i32::MIN` is its
own negation) and `as u8` is reduction mod 256 of the clamped magnitude. -/
def newGain (cur : Nat) (s : Int) : Nat :=
  if s > 0 then min (cur + (min s 255).toNat) 255
  else cur - ((min (if s = -(2 ^ 31) then -(2 ^ 31) else -s) 255).emod 256).toNat

/-- The per-frame mutation of `apply_gain` (src/lib.rs 483-491): for each
gain location in order, read the current value, compute the stepped value and
write it back. -/
def writeFrameGains (s : Int) (locs : List GainLocation) (data : List Nat) : List Nat :=
  locs.foldl (fun d loc => writeGainAt d loc (newGain (readGainAt d loc) s)) data

/-- The scanning/mutating loop of `apply_gain` (src/lib.rs 460-495); returns
the number of modified frames together with the final buffer.  The structure
mirrors `scanFrom`; on each accepted frame the buffer is mutated before the
scan continues at the next frame position, exactly as in the source. -/
def applyGainLoop (s : Int) : Nat → List Nat → Nat → Nat × List Nat
  | 0, data, _ => (0, data)
  | fuel + 1, data, pos =>
    if pos + 4 ≤ data.length then
      match parseHeader data pos with
      | none => applyGainLoop s fuel data (pos + 1)
      | some h =>
        if validFrameAt data (pos + h.frameSize) then
          let d1 := writeFrameGains s (calculateGainLocations pos h) data
          let r := applyGainLoop s fuel d1 (pos + h.frameSize)
          (r.1 + 1, r.2)
        else applyGainLoop s fuel data (pos + 1)
    else (0, data)

/-- `apply_gain` (src/lib.rs 448-501) on the in-memory buffer: a zero step
count returns immediately without touching the file (lines 449-451);
otherwise the buffer is scanned, mutated and written back in full.  The
result is the modified-frame count and the file content after the call. -/
def applyGain (data : List Nat) (s : Int) : Nat × List Nat :=
  if s = 0 then (0, data)
  else applyGainLoop s (data.length + 1) data (skipId3v2 data)

/-- The channel mode reported for a file: the mode of the first accepted
frame (`analyze`, src/lib.rs 405-409). -/
def fileChannelMode (data : List Nat) : Option ChannelMode :=
  (scanFrames data).head?.map fun ph => ph.2.channelMode

/-- The writes of `apply_gain` expressed frame by frame over an already
scanned frame list (the loop of src/lib.rs 460-495 performs exactly these
writes, interleaved with the scan). -/
def applyWrites (s : Int) (frames : List (Nat × FrameHeader)) (data : List Nat) : List Nat :=
  frames.foldl (fun d ph => writeFrameGains s (calculateGainLocations ph.1 ph.2) d) data

/-!
## Channel-specific gain (modelled from the spec)
-/

/-- Modelled from the spec: the `Channel` enum selecting the left or right
channel.  It is exported by the library (used by `main.rs` and the
integration tests) but its definition is not among the provided sources.
Spec §4.3 and the ordering rule of §4.2 ("ordered granule-major then
channel-minor") give the left channel index 0 and the right channel
index 1. -/
inductive Channel where
  | left
  | right
  deriving Repr, DecidableEq

/-- Index of a channel within each granule's location group. -/
def Channel.index : Channel → Nat
  | .left => 0
  | .right => 1

/-- The opposite channel. -/
def Channel.other : Channel → Channel
  | .left => .right
  | .right => .left

/-- Modelled from the spec: the locations of one frame that belong to the
selected channel.  Spec §4.2: one frame yields `granules × channels`
locations "ordered granule-major then channel-minor", so in a two-channel
frame the location at position `i` belongs to channel `i % 2`. -/
def channelLocations (ch : Channel) (locs : List GainLocation) : List GainLocation :=
  (locs.enum.filter fun p => p.1 % 2 = ch.index).map fun p => p.2

/-- Modelled from the spec: the per-frame mutation of `apply_gain_channel`,
stepping only the locations that belong to the selected channel. -/
def writeFrameGainsChannel (s : Int) (ch : Channel) (locs : List GainLocation)
    (data : List Nat) : List Nat :=
  writeFrameGains s (channelLocations ch locs) data

/-- Modelled from the spec: `apply_gain_channel(file, channel, steps)`, whose
definition is not among the provided sources (only its callers in `main.rs`
and the integration tests are).  Spec §4.3: it "restricts mutation to
locations belonging to one channel and fails if the file is mono"; the
integration tests additionally fix that a zero step count succeeds modifying
0 frames and that the mono error message mentions "mono".  The file is mono
when its reported channel mode (first frame) is mono. -/
def applyGainChannel (data : List Nat) (ch : Channel) (s : Int) :
    Except String (Nat × List Nat) :=
  match scanFrames data with
  | [] => .error "No valid MP3 frames found"
  | (_, h0) :: _ =>
    if h0.channelMode = ChannelMode.mono then
      .error "Cannot apply channel-specific gain to a mono file"
    else if s = 0 then .ok (0, data)
    else
      .ok ((scanFrames data).length,
        (scanFrames data).foldl
          (fun d ph => writeFrameGainsChannel s ch (calculateGainLocations ph.1 ph.2) d)
          data)

/-!
## APEv2 tag store (src/lib.rs 526-849)

Strings are modelled as their byte lists.  `String::from_utf8_lossy` is the
identity on the byte level here (replacement of invalid UTF-8 is not
modelled; all reserved keys and values are ASCII), and `str::to_uppercase` is
ASCII uppercasing, which agrees with Unicode uppercasing on the ASCII keys
the library uses.
-/

/-- ASCII uppercase of one byte. -/
def upperByte (b : Nat) : Nat := if 97 ≤ b ∧ b ≤ 122 then b - 32 else b

/-- ASCII uppercase of a byte string (models `str::to_uppercase`). -/
def upperBytes (s : List Nat) : List Nat := s.map upperByte

/-- `APE_PREAMBLE` = `b"APETAGEX"` (src/lib.rs 531). -/
def apePreamble : List Nat := [65, 80, 69, 84, 65, 71, 69, 88]

/-- `b"TAG"`, the ID3v1 marker (src/lib.rs 645, 795, 817). -/
def id3v1Marker : List Nat := [84, 65, 71]

/-- `TAG_MP3GAIN_UNDO` = `"MP3GAIN_UNDO"` (src/lib.rs 541). -/
def tagMp3gainUndo : List Nat := [77, 80, 51, 71, 65, 73, 78, 95, 85, 78, 68, 79]

/-- `TAG_MP3GAIN_MINMAX` = `"MP3GAIN_MINMAX"` (src/lib.rs 542). -/
def tagMp3gainMinmax : List Nat := [77, 80, 51, 71, 65, 73, 78, 95, 77, 73, 78, 77, 65, 88]

/-- APEv2 tag item (struct `ApeItem`, src/lib.rs 545-549). -/
structure ApeItem where
  key : List Nat
  value : List Nat
  deriving Repr, DecidableEq

/-- APEv2 tag collection (struct `ApeTag`, src/lib.rs 552-555). -/
structure ApeTag where
  items : List ApeItem
  deriving Repr, DecidableEq

/-- `ApeTag::get` (src/lib.rs 564-570): first item whose uppercased key
matches the uppercased lookup key. -/
def ApeTag.get (tag : ApeTag) (key : List Nat) : Option (List Nat) :=
  (tag.items.find? fun it => upperBytes it.key = upperBytes key).map fun it => it.value

/-- `ApeTag::remove` (src/lib.rs 590-594). -/
def ApeTag.removeKey (tag : ApeTag) (key : List Nat) : ApeTag :=
  { items := tag.items.filter fun it => upperBytes it.key ≠ upperBytes key }

/-- `ApeTag::is_empty` (src/lib.rs 597-599). -/
def ApeTag.isEmpty (tag : ApeTag) : Bool := tag.items.isEmpty

/-- A byte is ASCII/Latin-1 whitespace (models `char::is_whitespace` on the
single-byte characters that can appear in a numeric field). -/
def isWsByte (b : Nat) : Bool := b = 9 ∨ b = 10 ∨ b = 11 ∨ b = 12 ∨ b = 13 ∨ b = 32

/-- `str::trim` on the byte level. -/
def trimBytes (s : List Nat) : List Nat :=
  ((s.dropWhile isWsByte).reverse.dropWhile isWsByte).reverse

/-- `str::split(',')` on the byte level (byte 44 is the comma); splitting an
empty string yields one empty part, as in Rust. -/
def splitOnComma (s : List Nat) : List (List Nat) :=
  match s.splitOn 44 with
  | [] => [[]]
  | parts => parts

/-- `i32::from_str` (used at src/lib.rs 608): optional sign, one or more
ASCII digits, value within the `i32` range. -/
def parseI32 (s : List Nat) : Option Int :=
  let signDigits : Int × List Nat :=
    match s with
    | 43 :: rest => (1, rest)
    | 45 :: rest => (-1, rest)
    | _ => (1, s)
  if signDigits.2 = [] ∨ ¬ signDigits.2.all (fun c => 48 ≤ c ∧ c ≤ 57) then none
  else
    let n : Nat := signDigits.2.foldl (fun acc c => acc * 10 + (c - 48)) 0
    if signDigits.1 = 1 then
      if (n : Int) ≤ 2 ^ 31 - 1 then some (n : Int) else none
    else
      if (n : Int) ≤ 2 ^ 31 then some (-(n : Int)) else none

/-- `ApeTag::get_undo_gain` (src/lib.rs 602-613): parse the first
comma-separated field of the `MP3GAIN_UNDO` value as an `i32`. -/
def ApeTag.getUndoGain (tag : ApeTag) : Option Int :=
  match tag.get tagMp3gainUndo with
  | none => none
  | some v =>
    let parts := splitOnComma v
    if parts ≠ [] then parseI32 (trimBytes (parts.headD [])) else none

/-- The `n`-byte slice of the buffer starting at `i`. -/
def slice (data : List Nat) (i n : Nat) : List Nat := (data.drop i).take n

/-- `read_u32_le` (src/lib.rs 655-657). -/
def readU32LE (data : List Nat) (i : Nat) : Nat :=
  byteAt data i + byteAt data (i + 1) * 2 ^ 8 + byteAt data (i + 2) * 2 ^ 16
    + byteAt data (i + 3) * 2 ^ 24

/-- `find_ape_footer` (src/lib.rs 630-652). -/
def findApeFooter (data : List Nat) : Option Nat :=
  if data.length < 32 then none
  else if slice data (data.length - 32) 8 = apePreamble then some (data.length - 32)
  else if 160 ≤ data.length ∧ slice data (data.length - 160) 8 = apePreamble
      ∧ slice data (data.length - 128) 3 = id3v1Marker then
    some (data.length - 160)
  else none

/-- The key-scanning `while` of `read_ape_tag` (src/lib.rs 692-694): number
of bytes from `pos` up to the first NUL byte, bounded by `footerStart`. -/
def apeKeyLen (data : List Nat) (pos footerStart : Nat) : Nat :=
  ((slice data pos (footerStart - pos)).takeWhile fun b => b ≠ 0).length

/-- The item-parsing loop of `read_ape_tag` (src/lib.rs 682-710); the counter
is `item_count` and every `break` of the source returns the items parsed so
far. -/
def parseApeItems (data : List Nat) : Nat → Nat → Nat → List ApeItem
  | 0, _, _ => []
  | n + 1, pos, footerStart =>
    if pos + 8 > footerStart then []
    else
      let valueSize := readU32LE data pos
      let keyStart := pos + 8
      let keyLen := apeKeyLen data keyStart footerStart
      if keyStart + keyLen ≥ footerStart then []
      else
        let valueStart := keyStart + keyLen + 1
        if valueStart + valueSize > footerStart then []
        else
          { key := slice data keyStart keyLen, value := slice data valueStart valueSize }
            :: parseApeItems data n (valueStart + valueSize) footerStart

/-- `read_ape_tag` (src/lib.rs 660-713). -/
def readApeTag (data : List Nat) : Option ApeTag :=
  match findApeFooter data with
  | none => none
  | some footerStart =>
    if readU32LE data (footerStart + 8) ≠ 2000 then none
    else
      let tagSize := readU32LE data (footerStart + 12)
      let itemCount := readU32LE data (footerStart + 16)
      if footerStart + 32 < tagSize then none
      else some { items := parseApeItems data itemCount (footerStart + 32 - tagSize) footerStart }

/-- A `u32` in little-endian byte order (`u32::to_le_bytes`), reducing the
value mod 2^32 as the Rust `as u32` casts at src/lib.rs 754 do. -/
def u32le (n : Nat) : List Nat :=
  [n % 256, n / 2 ^ 8 % 256, n / 2 ^ 16 % 256, n / 2 ^ 24 % 256]

/-- The serialized items block of `serialize_ape_tag` (src/lib.rs 728-744):
per item, 4-byte value size, 4-byte zero flags, NUL-terminated key, value. -/
def serializeApeItems (items : List ApeItem) : List Nat :=
  items.flatMap fun it => u32le it.value.length ++ u32le 0 ++ it.key ++ [0] ++ it.value

/-- `serialize_ape_tag` (src/lib.rs 723-771): empty tags serialize to
nothing; otherwise header (preamble, version 2000, tag size = items + 32,
item count, flags `HEADER_PRESENT | IS_HEADER` = 2^31 + 2^29, 8 reserved
zero bytes), items, footer (same but flags `HEADER_PRESENT` = 2^31). -/
def serializeApeTag (tag : ApeTag) : List Nat :=
  if tag.isEmpty then []
  else
    let itemsData := serializeApeItems tag.items
    let tagSize := itemsData.length + 32
    apePreamble ++ u32le 2000 ++ u32le tagSize ++ u32le tag.items.length
      ++ u32le (2 ^ 31 + 2 ^ 29) ++ List.replicate 8 0
      ++ itemsData
      ++ apePreamble ++ u32le 2000 ++ u32le tagSize ++ u32le tag.items.length
      ++ u32le (2 ^ 31) ++ List.replicate 8 0

/-- `remove_ape_tag` (src/lib.rs 774-805): strip the APE tag, preserving a
trailing ID3v1 tag.  Bit 31 of the footer flags is the header-present flag
(`flags & APE_FLAG_HEADER_PRESENT != 0` is `flags / 2^31 % 2 = 1`). -/
def removeApeTag (data : List Nat) : List Nat :=
  match findApeFooter data with
  | none => data
  | some footerStart =>
    let tagSize := readU32LE data (footerStart + 12)
    let flags := readU32LE data (footerStart + 20)
    let headerSize := if flags / 2 ^ 31 % 2 = 1 then 32 else 0
    let audioEnd :=
      if footerStart + 32 ≥ tagSize + headerSize then footerStart + 32 - tagSize - headerSize
      else 0
    let id3v1Start := footerStart + 32
    if data.length > id3v1Start + 3 ∧ slice data id3v1Start 3 = id3v1Marker then
      data.take audioEnd ++ data.drop id3v1Start
    else data.take audioEnd

/-- `write_ape_tag` (src/lib.rs 808-836) on the buffer: strip any existing
APE tag, then splice the freshly serialized tag before a trailing ID3v1 tag
if one is present, else append it. -/
def writeApeTagData (data : List Nat) (tag : ApeTag) : List Nat :=
  let audio := removeApeTag data
  let tagData := serializeApeTag tag
  if 128 ≤ audio.length ∧ slice audio (audio.length - 128) 3 = id3v1Marker then
    audio.take (audio.length - 128) ++ tagData ++ audio.drop (audio.length - 128)
  else audio ++ tagData

/-- `i32` negation with wrapping (`i32::MIN` is its own negation), as the
release-mode `-gain_steps` behaves. -/
def i32Neg (s : Int) : Int := if s = -(2 ^ 31) then -(2 ^ 31) else -s

/-- `undo_gain` (src/lib.rs 883-910) on the buffer: fails without a tag or
without a parseable `MP3GAIN_UNDO` value; a zero undo value is a successful
no-op; otherwise the negated step count is applied, both MP3Gain keys are
removed, and the tag is rewritten — or deleted entirely when it became
empty. -/
def undoGain (data : List Nat) : Except String (Nat × List Nat) :=
  match readApeTag data with
  | none => .error "No APE tag found - cannot undo"
  | some tag =>
    match tag.getUndoGain with
    | none => .error "No MP3GAIN_UNDO tag found - cannot undo"
    | some u =>
      if u = 0 then .ok (0, data)
      else
        let r := applyGain data (i32Neg u)
        let newTag := (tag.removeKey tagMp3gainUndo).removeKey tagMp3gainMinmax
        if newTag.isEmpty then .ok (r.1, removeApeTag r.2)
        else .ok (r.1, writeApeTagData r.2 newTag)

/-!
## MP4 box editor (src/mp4meta.rs): chunk-offset fixup after metadata resize
-/

/-- `read_u32` in big-endian byte order (`u32::from_be_bytes`,
src/mp4meta.rs 788-790 and elsewhere). -/
def readU32BE (data : List Nat) (i : Nat) : Nat :=
  byteAt data i * 2 ^ 24 + byteAt data (i + 1) * 2 ^ 16 + byteAt data (i + 2) * 2 ^ 8
    + byteAt data (i + 3)

/-- `u64::from_be_bytes` (src/mp4meta.rs 843-852). -/
def readU64BE (data : List Nat) (i : Nat) : Nat :=
  readU32BE data i * 2 ^ 32 + readU32BE data (i + 4)

/-- Store a `u32` big-endian (`u32::to_be_bytes` + `copy_from_slice`,
src/mp4meta.rs 821). -/
def writeU32BE (data : List Nat) (i v : Nat) : List Nat :=
  (((data.set i (v / 2 ^ 24 % 256)).set (i + 1) (v / 2 ^ 16 % 256)).set
    (i + 2) (v / 2 ^ 8 % 256)).set (i + 3) (v % 256)

/-- Store a `u64` big-endian (src/mp4meta.rs 854). -/
def writeU64BE (data : List Nat) (i v : Nat) : List Nat :=
  writeU32BE (writeU32BE data i (v / 2 ^ 32 % 2 ^ 32)) (i + 4) (v % 2 ^ 32)

/-- Four-character box type code as a big-endian `u32`
(src/mp4meta.rs 36-49, 772-777). -/
def fourCC (a b c d : Nat) : Nat := a * 2 ^ 24 + b * 2 ^ 16 + c * 2 ^ 8 + d

/-- `MOOV` = `b"moov"`. -/
def boxMOOV : Nat := fourCC 109 111 111 118

/-- `MDAT` = `b"mdat"`. -/
def boxMDAT : Nat := fourCC 109 100 97 116

/-- `STCO` = `b"stco"`. -/
def boxSTCO : Nat := fourCC 115 116 99 111

/-- `CO64` = `b"co64"`. -/
def boxCO64 : Nat := fourCC 99 111 54 52

/-- `TRAK` = `b"trak"`. -/
def boxTRAK : Nat := fourCC 116 114 97 107

/-- `MDIA` = `b"mdia"`. -/
def boxMDIA : Nat := fourCC 109 100 105 97

/-- `MINF` = `b"minf"`. -/
def boxMINF : Nat := fourCC 109 105 110 102

/-- `STBL` = `b"stbl"`. -/
def boxSTBL : Nat := fourCC 115 116 98 108

/-- `UDTA` = `b"udta"`. -/
def boxUDTA : Nat := fourCC 117 100 116 97

/-- MP4 box header (struct `BoxHeader`, src/mp4meta.rs 52-57). -/
structure BoxHeader where
  size : Nat
  boxType : Nat
  headerSize : Nat
  deriving Repr, DecidableEq

/-- `BoxHeader::read` (src/mp4meta.rs 60-88) at a buffer position; `none`
covers both the clean end-of-stream and the short-extended-size error, which
end the `find_box` loop alike. -/
def readBoxHeader (data : List Nat) (pos : Nat) : Option BoxHeader :=
  if pos + 8 > data.length then none
  else
    let size32 := readU32BE data pos
    let typ := readU32BE data (pos + 4)
    if size32 = 1 then
      if pos + 16 > data.length then none
      else some { size := readU64BE data (pos + 8), boxType := typ, headerSize := 16 }
    else some { size := size32, boxType := typ, headerSize := 8 }

/-- The `find_box` loop (src/mp4meta.rs 180-203).  The position strictly
increases, so the fuel passed by `findBox` can never run out. -/
def findBoxFrom (data : List Nat) (boxType : Nat) : Nat → Nat → Option (Nat × BoxHeader)
  | 0, _ => none
  | fuel + 1, pos =>
    match readBoxHeader data pos with
    | none => none
    | some h =>
      if h.boxType = boxType then some (pos, h)
      else if h.size = 0 then none
      else if pos + h.size ≥ data.length then none
      else findBoxFrom data boxType fuel (pos + h.size)

/-- `find_box` (src/mp4meta.rs 180-203). -/
def findBox (data : List Nat) (boxType : Nat) : Option (Nat × BoxHeader) :=
  findBoxFrom data boxType (data.length + 1) 0

/-- The `stco` entry-update loop (src/mp4meta.rs 809-823): each 32-bit
big-endian entry becomes `(offset as i64 + size_diff) as u32`, i.e. the sum
reduced mod 2^32. -/
def updEntries32 (diff : Int) : Nat → List Nat → Nat → List Nat
  | 0, data, _ => data
  | n + 1, data, p =>
    if p + 4 > data.length then data
    else
      updEntries32 diff n
        (writeU32BE data p (((readU32BE data p : Int) + diff).emod (2 ^ 32)).toNat) (p + 4)

/-- The `co64` entry-update loop (src/mp4meta.rs 838-856): each 64-bit entry
becomes `(offset as i64 + size_diff) as u64`, the sum reduced mod 2^64. -/
def updEntries64 (diff : Int) : Nat → List Nat → Nat → List Nat
  | 0, data, _ => data
  | n + 1, data, p =>
    if p + 8 > data.length then data
    else
      updEntries64 diff n
        (writeU64BE data p (((readU64BE data p : Int) + diff).emod (2 ^ 64)).toNat) (p + 8)

/-- `update_offsets_recursive` (src/mp4meta.rs 779-870).  The box walk reads
the raw 4-byte size/type words; `stco`/`co64` payloads are updated when the
entry-count word is in bounds, the six container types are recursed into, and
the walk advances by the box size.  The fuel dominates the walk (both the
loop step and the recursion strictly shrink `endp - pos`). -/
def updRec (diff : Int) : Nat → List Nat → Nat → Nat → List Nat
  | 0, data, _, _ => data
  | fuel + 1, data, pos, endp =>
    if pos + 8 ≤ endp then
      let size := readU32BE data pos
      let typ := readU32BE data (pos + 4)
      if size = 0 ∨ pos + size > endp then data
      else
        let d1 :=
          if typ = boxSTCO then
            if pos + 16 ≤ data.length then updEntries32 diff (readU32BE data (pos + 12)) data (pos + 16)
            else data
          else if typ = boxCO64 then
            if pos + 16 ≤ data.length then updEntries64 diff (readU32BE data (pos + 12)) data (pos + 16)
            else data
          else if typ = boxTRAK ∨ typ = boxMDIA ∨ typ = boxMINF ∨ typ = boxSTBL
              ∨ typ = boxMOOV ∨ typ = boxUDTA then
            updRec diff fuel data (pos + 8) (pos + size)
          else data
        updRec diff fuel d1 (pos + size) endp
    else data

/-- `update_chunk_offsets` (src/mp4meta.rs 757-770): re-find `moov` for its
size, then fix every chunk offset between `moov_pos + 8` and the end of
`moov`. -/
def updateChunkOffsets (data : List Nat) (moovPos : Nat) (diff : Int) : List Nat :=
  match findBox data boxMOOV with
  | none => data
  | some (_, hdr) => updRec diff (data.length + 1) data (moovPos + 8) (moovPos + hdr.size)

/-- The offset-fixup gate of `update_mp4_metadata` (src/mp4meta.rs 525-535):
`mdat` is looked up in the original buffer; offsets are touched only when
`moov` precedes `mdat` and the rewrite changed the total length. -/
def applyOffsetFixup (origData result : List Nat) (moovPos : Nat) : List Nat :=
  match findBox origData boxMDAT with
  | some (mdatPos, _) =>
    if mdatPos > moovPos then
      if (result.length : Int) - origData.length ≠ 0 then
        updateChunkOffsets result moovPos ((result.length : Int) - origData.length)
      else result
    else result
  | none => result

/-- One chunk-offset table entry: its byte position, width (`false` for a
32-bit `stco` entry, `true` for a 64-bit `co64` entry) and stored value.
Observation record for stating the C7 property. -/
structure ChunkOffsetEntry where
  pos : Nat
  wide : Bool
  val : Nat
  deriving Repr, DecidableEq

/-- Observation function: the `stco` entries of one table, mirroring the
guards of the update loop. -/
def collectEntries32 (data : List Nat) : Nat → Nat → List ChunkOffsetEntry
  | 0, _ => []
  | n + 1, p =>
    if p + 4 > data.length then []
    else { pos := p, wide := false, val := readU32BE data p } :: collectEntries32 data n (p + 4)

/-- Observation function: the `co64` entries of one table, mirroring the
guards of the update loop. -/
def collectEntries64 (data : List Nat) : Nat → Nat → List ChunkOffsetEntry
  | 0, _ => []
  | n + 1, p =>
    if p + 8 > data.length then []
    else { pos := p, wide := true, val := readU64BE data p } :: collectEntries64 data n (p + 8)

/-- Observation function: every `stco`/`co64` entry reachable by the walk of
`update_offsets_recursive` between `pos` and `endp` — the same traversal,
collecting instead of updating. -/
def collectRec : Nat → List Nat → Nat → Nat → List ChunkOffsetEntry
  | 0, _, _, _ => []
  | fuel + 1, data, pos, endp =>
    if pos + 8 ≤ endp then
      let size := readU32BE data pos
      let typ := readU32BE data (pos + 4)
      if size = 0 ∨ pos + size > endp then []
      else
        (if typ = boxSTCO then
          if pos + 16 ≤ data.length then collectEntries32 data (readU32BE data (pos + 12)) (pos + 16)
          else []
        else if typ = boxCO64 then
          if pos + 16 ≤ data.length then collectEntries64 data (readU32BE data (pos + 12)) (pos + 16)
          else []
        else if typ = boxTRAK ∨ typ = boxMDIA ∨ typ = boxMINF ∨ typ = boxSTBL
            ∨ typ = boxMOOV ∨ typ = boxUDTA then
          collectRec fuel data (pos + 8) (pos + size)
        else []) ++ collectRec fuel data (pos + size) endp
    else []

/-- The value change applied by the offset fixup to one entry: the length
delta is added in `i64` arithmetic and the sum is stored back as `u32`
(`stco`) or `u64` (`co64`), i.e. reduced modulo the entry width. -/
def shiftEntry (diff : Int) (e : ChunkOffsetEntry) : ChunkOffsetEntry :=
  { e with val := (((e.val : Int) + diff).emod (if e.wide then 2 ^ 64 else 2 ^ 32)).toNat }

/-- Well-formedness of the box span walked by `update_offsets_recursive`:
every `stco`/`co64` table announces an entry count whose payload stays inside
its own box, and nested containers are well-formed in turn.  This is the
structural validity an intact MP4 `moov` tree has; it keeps the offset
rewrites inside the chunk-offset payloads. -/
def wfBoxes : Nat → List Nat → Nat → Nat → Bool
  | 0, _, _, _ => false
  | fuel + 1, data, pos, endp =>
    if pos + 8 ≤ endp then
      let size := readU32BE data pos
      let typ := readU32BE data (pos + 4)
      if size = 0 ∨ pos + size > endp then true
      else
        (if typ = boxSTCO then
          decide (pos + 16 ≤ data.length → 16 + 4 * readU32BE data (pos + 12) ≤ size)
        else if typ = boxCO64 then
          decide (pos + 16 ≤ data.length → 16 + 8 * readU32BE data (pos + 12) ≤ size)
        else if typ = boxTRAK ∨ typ = boxMDIA ∨ typ = boxMINF ∨ typ = boxSTBL
            ∨ typ = boxMOOV ∨ typ = boxUDTA then
          wfBoxes fuel data (pos + 8) (pos + size)
        else true)
        && wfBoxes fuel data (pos + size) endp
    else true

/-!
## Loudness histogram (src/replaygain.rs 619-766, 904-906)

`f64` values are modelled as exact rationals.  Where a floating-point
rounding step changes an integer outcome — the percentile threshold
`((total as f64) * (1.0 - RMS_PERCENTILE)).ceil()` — the IEEE-754
round-to-nearest-even step is modelled explicitly by `nearestF64`.  The
divisions `(i - 7000) / 100.0` and the subtraction `64.82 - loudness` only
incur representation error that never changes a comparison made by the
program, and are kept exact.
-/

/-- Largest `e : ℤ` with `2^e ≤ q`, for positive `q` (the IEEE exponent). -/
def exp2Floor (q : ℚ) : Int :=
  if 1 ≤ q then (Nat.log2 (Int.toNat ⌊q⌋) : Int)
  else
    let m := Nat.log2 (Int.toNat ⌊q⁻¹⌋)
    if (2 : ℚ) ^ (-(m : Int)) ≤ q then -(m : Int) else -(m : Int) - 1

/-- Round a positive rational to the nearest `f64` (53-bit significand,
ties to even; the inputs stay far inside the normal range, so overflow and
subnormals do not arise). -/
def nearestF64Pos (q : ℚ) : ℚ :=
  if q ≤ 0 then 0
  else
    let e := exp2Floor q
    let scaled := q * (2 : ℚ) ^ ((52 : Int) - e)
    let n := ⌊scaled⌋
    let rounded :=
      if scaled - n < 1 / 2 then n
      else if 1 / 2 < scaled - n then n + 1
      else if n % 2 = 0 then n else n + 1
    (rounded : ℚ) * (2 : ℚ) ^ (e - 52)

/-- Round a rational to the nearest `f64` value. -/
def nearestF64 (q : ℚ) : ℚ :=
  if q = 0 then 0
  else if q < 0 then -(nearestF64Pos (-q)) else nearestF64Pos q

/-- The `f64` constant `RMS_PERCENTILE = 0.95` (src/replaygain.rs 633). -/
def rmsPercentileF64 : ℚ := nearestF64 (19 / 20)

/-- The `f64` value of `1.0 - RMS_PERCENTILE` (src/replaygain.rs 666):
an exact IEEE subtraction of two doubles, hence the rounded exact
difference.  Its value is 225179981368525 / 2^52, slightly above 1/20. -/
def oneMinusPercentileF64 : ℚ := nearestF64 (1 - rmsPercentileF64)

/-- The percentile threshold of `LoudnessHistogram::get_loudness`
(src/replaygain.rs 666): `((total as f64) * (1.0 - RMS_PERCENTILE)).ceil()
as u64`, with both the int-to-double conversion and the product rounded to
nearest. -/
def rmsThreshold (total : Nat) : Nat :=
  (Int.ceil (nearestF64 (nearestF64 (total : ℚ) * oneMinusPercentileF64))).toNat

/-- The downward scan of `get_loudness` (src/replaygain.rs 669-674): walk
buckets `i = 11999, …, 0` accumulating counts; at the first bucket where the
accumulated count reaches the threshold return `(i - 7000) / 100`; return
`-70` if the loop finishes. -/
def loudnessScan (hist : List Nat) (threshold : Nat) : Nat → Nat → ℚ
  | 0, _ => -70
  | i + 1, acc =>
    if acc + hist.getD i 0 ≥ threshold then ((i : ℚ) - 7000) / 100
    else loudnessScan hist threshold i (acc + hist.getD i 0)

/-- `LoudnessHistogram::get_loudness` (src/replaygain.rs 659-678). -/
def getLoudness (hist : List Nat) : ℚ :=
  if hist.sum = 0 then -70
  else loudnessScan hist (rmsThreshold hist.sum) 12000 0

/-- `PINK_REF - loudness` (src/replaygain.rs 44, 904-906): the track gain in
dB computed by `analyze_track_internal`. -/
def trackGainDb (hist : List Nat) : ℚ := 6482 / 100 - getLoudness hist

/-- Truncation toward zero, the rounding of a Rust `as i32` float cast. -/
def ratTrunc (q : ℚ) : Int := if 0 ≤ q then ⌊q⌋ else ⌈q⌉

/-- Saturating `f64`-to-`i32` cast (`val as i32`). -/
def i32SatOfRat (q : ℚ) : Int := max (-(2 ^ 31)) (min (2 ^ 31 - 1) (ratTrunc q))

/-- Wrapping `i32` addition result (two's complement). -/
def wrap32 (x : Int) : Int := (x + 2 ^ 31).emod (2 ^ 32) - 2 ^ 31

/-- The histogram update of `ReplayGainAnalyzer::finish_window`
(src/replaygain.rs 747-754), taking the already-computed `f64` value
`val = STEPS_PER_DB * 10.0 * log10(mean_square + 1e-37)` as input:
`let idx = (val as i32 + HISTOGRAM_OFFSET) as usize;
if idx < HISTOGRAM_SIZE { self.histogram.data[idx] += 1; }`.
The `as usize` of a negative `i32` sign-extends to a huge 64-bit value, so a
negative index never passes the bound check and the window is dropped. -/
def finishWindowHist (hist : List Nat) (val : ℚ) : List Nat :=
  let idxZ := wrap32 (i32SatOfRat val + 7000)
  let idxU := (idxZ.emod (2 ^ 64)).toNat
  if idxU < 12000 then hist.set idxU (hist.getD idxU 0 + 1) else hist

/-- Following the spec wording of C9 (refinement comparison definition, not
from the source): the histogram index `round(100 × 10 × log10(mean_square +
1e-37)) + 7000 … clamped into the valid range [0, 11999]`, applied to the
already-computed value `val`. -/
def histIndexPerSpec (val : ℚ) : Nat := (max 0 (min 11999 (round val + 7000))).toNat

/-- Following the spec wording of C8 (refinement comparison definition, not
from the source): the threshold `ceil(total × 0.05)` in exact arithmetic. -/
def thresholdPerSpec (total : Nat) : Nat := (Int.ceil ((total : ℚ) * (5 / 100))).toNat

/-- Following the spec wording of C8 (refinement comparison definition, not
from the source): the loudness obtained with the exact-arithmetic threshold
`ceil(total × 0.05)`. -/
def loudnessPerSpec (hist : List Nat) : ℚ :=
  if hist.sum = 0 then -70
  else loudnessScan hist (thresholdPerSpec hist.sum) 12000 0

/-- Count of the windows in buckets `i, …, 11999`: the accumulator of the
downward scan when it reaches bucket `i - 1`. -/
def tailCount (hist : List Nat) (i : Nat) : Nat := ((hist.take 12000).drop i).sum

/-!
## Theorems

### Byte-buffer helpers
-/

theorem byteAt_set_eq {data : List Nat} {i : Nat} (h : i < data.length) (v : Nat) :
    byteAt (data.set i v) i = v := by
  simp [byteAt, List.getD, List.getElem?_set_eq_of_lt v h]

theorem byteAt_set_ne {i j : Nat} (h : i ≠ j) (data : List Nat) (v : Nat) :
    byteAt (data.set i v) j = byteAt data j := by
  simp [byteAt, List.getD, List.getElem?_set_ne h]

theorem byteAt_lt_of_byteVec {data : List Nat} (hB : ByteVec data) (i : Nat)
    (h : i < data.length) : byteAt data i < 256 := by
  have hmem : data[i] ∈ data := List.getElem_mem h
  have : byteAt data i = data[i] := by
    simp [byteAt, List.getD, List.getElem?_eq_getElem h]
  rw [this]
  exact hB _ hmem

theorem byteVec_set {data : List Nat} (hB : ByteVec data) {v : Nat} (hv : v < 256) (i : Nat) :
    ByteVec (data.set i v) := by
  intro b hb
  rcases List.mem_or_eq_of_mem_set hb with h | rfl
  · exact hB b h
  · exact hv

/-!
### BitField codec shape lemmas and round trip (C2)
-/

theorem length_writeGainAt (data : List Nat) (loc : GainLocation) (v : Nat) :
    (writeGainAt data loc v).length = data.length := by
  simp only [writeGainAt]; split_ifs <;> simp

theorem readGainAt_aligned {data : List Nat} {idx : Nat} (h : idx < data.length) :
    readGainAt data ⟨idx, 0⟩ = byteAt data idx := by
  simp only [readGainAt]; split_ifs <;> first | rfl | omega

theorem readGainAt_mid {data : List Nat} {idx bit : Nat} (h : idx + 1 < data.length)
    (hb : bit ≠ 0) :
    readGainAt data ⟨idx, bit⟩ =
      byteAt data idx % 2 ^ (8 - bit) * 2 ^ bit + byteAt data (idx + 1) / 2 ^ (8 - bit) := by
  simp only [readGainAt]; split_ifs <;> first | rfl | omega

theorem readGainAt_final {data : List Nat} {idx bit : Nat} (h : idx < data.length)
    (h2 : ¬ idx + 1 < data.length) (hb : bit ≠ 0) :
    readGainAt data ⟨idx, bit⟩ = byteAt data idx % 2 ^ (8 - bit) * 2 ^ bit := by
  simp only [readGainAt]; split_ifs <;> first | rfl | omega

theorem writeGainAt_aligned {data : List Nat} {idx : Nat} (h : idx < data.length) (v : Nat) :
    writeGainAt data ⟨idx, 0⟩ v = data.set idx v := by
  simp only [writeGainAt]; split_ifs <;> first | rfl | omega

theorem writeGainAt_mid {data : List Nat} {idx bit : Nat} (h : idx + 1 < data.length)
    (hb : bit ≠ 0) (v : Nat) :
    writeGainAt data ⟨idx, bit⟩ v =
      (data.set idx (byteAt data idx / 2 ^ (8 - bit) * 2 ^ (8 - bit) + v / 2 ^ bit)).set
        (idx + 1) (byteAt data (idx + 1) % 2 ^ (8 - bit) + v % 2 ^ bit * 2 ^ (8 - bit)) := by
  simp only [writeGainAt]; split_ifs <;> first | rfl | omega

theorem writeGainAt_final {data : List Nat} {idx bit : Nat} (h : idx < data.length)
    (h2 : ¬ idx + 1 < data.length) (hb : bit ≠ 0) (v : Nat) :
    writeGainAt data ⟨idx, bit⟩ v =
      data.set idx (byteAt data idx / 2 ^ (8 - bit) * 2 ^ (8 - bit) + v / 2 ^ bit) := by
  simp only [writeGainAt]; split_ifs <;> first | rfl | omega

theorem writeGain_read_roundtrip (data : List Nat) (loc : GainLocation) (v : Nat)
    (hv : v < 256) (hbit : loc.bitOffset < 8)
    (hin : loc.byteOffset + 1 < data.length ∨
      (loc.bitOffset = 0 ∧ loc.byteOffset < data.length)) :
    readGainAt (writeGainAt data loc v) loc = v := by
  obtain ⟨idx, bit⟩ := loc
  dsimp only at hbit hin ⊢
  rcases hin with hin | ⟨hb0, hidx⟩
  · by_cases hb : bit = 0
    · subst hb
      rw [writeGainAt_aligned (by omega), readGainAt_aligned (by simp; omega),
        byteAt_set_eq (by omega)]
    · rw [writeGainAt_mid hin hb, readGainAt_mid (by simp; omega) hb,
        byteAt_set_ne (by omega) _ _, byteAt_set_eq (by omega),
        byteAt_set_eq (by simp; omega)]
      interval_cases bit <;> omega
  · subst hb0
    rw [writeGainAt_aligned hidx, readGainAt_aligned (by simp [hidx]),
      byteAt_set_eq (by omega)]

/-- C2 (corrected): writing an 8-bit value `v` at `(byte_offset, bit_offset)`
with `write_gain_at` and reading it back with `read_gain_at` returns `v`
whenever the location is bit-aligned or a following byte exists; at the final
byte of the buffer with a nonzero bit offset, only the high `8 − bit_offset`
bits are stored, so the read returns `v` with its low `bit_offset` bits
cleared instead of `v` itself. -/
theorem claim_C2 (data : List Nat) (loc : GainLocation) (v : Nat)
    (hv : v < 256) (hbit : loc.bitOffset < 8) (hidx : loc.byteOffset < data.length) :
    readGainAt (writeGainAt data loc v) loc =
      if loc.bitOffset = 0 ∨ loc.byteOffset + 1 < data.length then v
      else v / 2 ^ loc.bitOffset * 2 ^ loc.bitOffset := by
  split_ifs with hcase
  · exact writeGain_read_roundtrip data loc v hv hbit (by tauto)
  · push_neg at hcase
    obtain ⟨idx, bit⟩ := loc
    dsimp only at hbit hidx hcase ⊢
    rw [writeGainAt_final hidx (by omega) hcase.1,
      readGainAt_final (by simp [hidx]) (by simp; omega) hcase.1,
      byteAt_set_eq (by omega)]
    have hb8 : bit < 8 := hbit
    have hb0 : bit ≠ 0 := hcase.1
    interval_cases bit <;> omega

/-- C2 counterexample: at the final byte of the buffer with bit offset 4,
writing the value 1 and reading it back yields 0, not 1 — the round trip
fails at the final-byte edge case the claim includes. -/
theorem claim_C2_counterexample :
    readGainAt (writeGainAt [0] ⟨0, 4⟩ 1) ⟨0, 4⟩ ≠ 1 := by decide

/-- C2 witness: the round trip at a concrete unaligned in-bounds location,
and the concrete low-bit loss at a final-byte location. -/
theorem claim_C2_witness :
    readGainAt (writeGainAt [171, 205] ⟨0, 4⟩ 154) ⟨0, 4⟩ = 154 ∧
      readGainAt (writeGainAt [171] ⟨0, 4⟩ 154) ⟨0, 4⟩ = 144 := by
  constructor
  · rw [claim_C2 [171, 205] ⟨0, 4⟩ 154 (by decide) (by decide) (by decide)]
    decide
  · rw [claim_C2 [171] ⟨0, 4⟩ 154 (by decide) (by decide) (by decide)]
    decide

/-!
### C3: a zero-step `apply_gain` is a byte-for-byte no-op
-/

/-- C3 (confirmed): `apply_gain` with `gain_steps = 0` returns successfully
having modified 0 frames, and the file content is byte-for-byte the input
content — the early return at src/lib.rs 449-451 precedes any file write. -/
theorem claim_C3 (data : List Nat) : applyGain data 0 = (0, data) := by
  simp [applyGain]

/-!
### Gain-location geometry

Every header that `parse_header` can return is one of finitely many
configurations; over all of them, the gain locations of a frame start at
least 4 bytes into the frame, end at least 2 bytes before the frame's end,
and are pairwise at least 2 bytes apart.
-/

set_option maxHeartbeats 2000000 in
theorem parseHeader_shape {data : List Nat} {pos : Nat} {h : FrameHeader}
    (hp : parseHeader data pos = some h) :
    ∃ ver crc bIdx srIdx pad mode, 0 < bIdx ∧ bIdx < 15 ∧ srIdx < 3 ∧
      h = mkFrameHeader ver crc bIdx srIdx pad mode := by
  have h16 : byteAt data (pos + 2) / 16 % 16 < 16 := Nat.mod_lt _ (by norm_num)
  have h4 : byteAt data (pos + 2) / 4 % 4 < 4 := Nat.mod_lt _ (by norm_num)
  unfold parseHeader at hp
  split_ifs at hp <;>
    first
    | exact Option.noConfusion hp
    | exact ⟨_, _, _, _, _, _, by omega, by omega, by omega, (Option.some.inj hp).symm⟩

set_option maxHeartbeats 4000000 in
theorem mkFrameHeader_locList :
    ∀ ver ∈ [MpegVersion.mpeg1, MpegVersion.mpeg2, MpegVersion.mpeg25],
    ∀ crc ∈ [true, false],
    ∀ bIdx ∈ List.range 16, ∀ srIdx ∈ List.range 4,
    ∀ pad ∈ [true, false],
    ∀ mode ∈ [ChannelMode.stereo, ChannelMode.jointStereo, ChannelMode.dualChannel,
      ChannelMode.mono],
      0 < bIdx → bIdx < 15 → srIdx < 3 →
      ((∀ loc ∈ calculateGainLocations 0 (mkFrameHeader ver crc bIdx srIdx pad mode),
          4 ≤ loc.byteOffset
            ∧ loc.byteOffset + 2 ≤ (mkFrameHeader ver crc bIdx srIdx pad mode).frameSize
            ∧ loc.bitOffset < 8)
        ∧ (calculateGainLocations 0 (mkFrameHeader ver crc bIdx srIdx pad mode)).Pairwise
            (fun a b => a.byteOffset + 2 ≤ b.byteOffset)) := by decide

theorem calculateGainLocations_shift (pos : Nat) (h : FrameHeader) :
    calculateGainLocations pos h
      = (calculateGainLocations 0 h).map fun l =>
          { byteOffset := pos + l.byteOffset, bitOffset := l.bitOffset } := by
  unfold calculateGainLocations
  simp only [List.map_flatMap]
  congr 1
  funext gr
  simp only [List.map_map]
  congr 1
  funext ch
  simp only [Function.comp_apply, GainLocation.mk.injEq]
  exact ⟨by omega, trivial⟩

theorem locProps_of_parse {data : List Nat} {pos : Nat} {h : FrameHeader}
    (hp : parseHeader data pos = some h) :
    (∀ loc ∈ calculateGainLocations pos h,
        pos + 4 ≤ loc.byteOffset ∧ loc.byteOffset + 2 ≤ pos + h.frameSize ∧ loc.bitOffset < 8)
      ∧ (calculateGainLocations pos h).Pairwise
          (fun a b => a.byteOffset + 2 ≤ b.byteOffset) := by
  obtain ⟨ver, crc, bIdx, srIdx, pad, mode, hb0, hb15, hsr, rfl⟩ := parseHeader_shape hp
  have base := mkFrameHeader_locList ver (by cases ver <;> simp) crc (by cases crc <;> simp)
    bIdx (List.mem_range.mpr (by omega)) srIdx (List.mem_range.mpr (by omega))
    pad (by cases pad <;> simp) mode (by cases mode <;> simp) hb0 hb15 hsr
  rw [calculateGainLocations_shift]
  constructor
  · intro loc hloc
    rw [List.mem_map] at hloc
    obtain ⟨l0, hl0, rfl⟩ := hloc
    obtain ⟨hA, hB, hC⟩ := base.1 l0 hl0
    exact ⟨by simp; omega, by simp; omega, by simpa using hC⟩
  · exact List.Pairwise.map _ (fun a b hab => by dsimp only; omega) base.2

theorem validFrameAt_le {data : List Nat} {n : Nat} (h : validFrameAt data n) :
    n ≤ data.length := by
  unfold validFrameAt at h
  split_ifs at h <;> omega

/-!
### Scan stability, write locality, and the gain round trip (C1)
-/

theorem parseHeader_congr {d1 d2 : List Nat} {pos : Nat} (hlen : d1.length = d2.length)
    (hag : ∀ j, pos ≤ j → byteAt d1 j = byteAt d2 j) :
    parseHeader d1 pos = parseHeader d2 pos := by
  unfold parseHeader
  rw [hlen, hag pos (by omega), hag (pos + 1) (by omega), hag (pos + 2) (by omega),
    hag (pos + 3) (by omega)]

theorem validFrameAt_congr {d1 d2 : List Nat} {m n : Nat} (hlen : d1.length = d2.length)
    (hag : ∀ j, n ≤ j → byteAt d1 j = byteAt d2 j) (hm : n ≤ m) :
    validFrameAt d1 m ↔ validFrameAt d2 m := by
  unfold validFrameAt
  rw [hlen, hag m hm, hag (m + 1) (by omega)]

theorem scanFrom_congr {d1 d2 : List Nat} (hlen : d1.length = d2.length) :
    ∀ fuel pos, (∀ j, pos ≤ j → byteAt d1 j = byteAt d2 j) →
      scanFrom d1 fuel pos = scanFrom d2 fuel pos := by
  intro fuel
  induction fuel with
  | zero => intro pos _; rfl
  | succ fuel ih =>
    intro pos hag
    unfold scanFrom
    rw [hlen, parseHeader_congr hlen hag]
    cases hp : parseHeader d2 pos with
    | none =>
      by_cases hc : pos + 4 ≤ d2.length
      · rw [if_pos hc, if_pos hc]
        exact ih (pos + 1) fun j hj => hag j (by omega)
      · rw [if_neg hc, if_neg hc]
    | some h =>
      by_cases hc : pos + 4 ≤ d2.length
      · rw [if_pos hc, if_pos hc]
        simp only
        rw [if_congr (validFrameAt_congr hlen hag (by omega)) rfl rfl]
        by_cases hv : validFrameAt d2 (pos + h.frameSize)
        · rw [if_pos hv, if_pos hv, ih (pos + h.frameSize) fun j hj => hag j (by omega)]
        · rw [if_neg hv, if_neg hv]
          exact ih (pos + 1) fun j hj => hag j (by omega)
      · rw [if_neg hc, if_neg hc]

theorem byteAt_writeGainAt_outside {data : List Nat} {loc : GainLocation} {v j : Nat}
    (hj : j ≠ loc.byteOffset ∧ j ≠ loc.byteOffset + 1) :
    byteAt (writeGainAt data loc v) j = byteAt data j := by
  unfold writeGainAt
  split_ifs <;>
    first
    | rw [byteAt_set_ne (by omega), byteAt_set_ne (by omega)]
    | rw [byteAt_set_ne (by omega)]
    | rfl

theorem writeFrameGains_length (s : Int) (L : List GainLocation) (data : List Nat) :
    (writeFrameGains s L data).length = data.length := by
  induction L generalizing data with
  | nil => rfl
  | cons loc rest ih =>
    show (writeFrameGains s rest (writeGainAt data loc _)).length = _
    rw [ih, length_writeGainAt]

theorem byteAt_writeFrameGains_outside {s : Int} {L : List GainLocation}
    {data : List Nat} {j : Nat}
    (hL : ∀ loc ∈ L, j ≠ loc.byteOffset ∧ j ≠ loc.byteOffset + 1) :
    byteAt (writeFrameGains s L data) j = byteAt data j := by
  induction L generalizing data with
  | nil => rfl
  | cons loc rest ih =>
    show byteAt (writeFrameGains s rest (writeGainAt data loc _)) j = _
    rw [ih fun l hl => hL l (List.mem_cons_of_mem _ hl),
      byteAt_writeGainAt_outside (hL loc (List.mem_cons_self _ _))]




theorem applyGainLoop_decomp (s : Int) :
    ∀ fuel data pos, applyGainLoop s fuel data pos
      = ((scanFrom data fuel pos).length, applyWrites s (scanFrom data fuel pos) data) := by
  intro fuel
  induction fuel with
  | zero => intro data pos; rfl
  | succ fuel ih =>
    intro data pos
    unfold applyGainLoop scanFrom
    by_cases hlen : pos + 4 ≤ data.length
    · rw [if_pos hlen, if_pos hlen]
      cases hp : parseHeader data pos with
      | none => simpa using ih data (pos + 1)
      | some h =>
        simp only
        by_cases hv : validFrameAt data (pos + h.frameSize)
        · rw [if_pos hv, if_pos hv]
          have hbnd := (locProps_of_parse hp).1
          have hag : ∀ j, pos + h.frameSize ≤ j →
              byteAt (writeFrameGains s (calculateGainLocations pos h) data) j
                = byteAt data j := by
            intro j hj
            refine byteAt_writeFrameGains_outside fun loc hloc => ?_
            have := hbnd loc hloc
            omega
          have hlen2 : (writeFrameGains s (calculateGainLocations pos h) data).length
              = data.length := writeFrameGains_length s _ data
          rw [ih (writeFrameGains s (calculateGainLocations pos h) data) (pos + h.frameSize),
            scanFrom_congr hlen2 fuel (pos + h.frameSize) hag]
          simp [applyWrites, List.length_cons]
        · rw [if_neg hv, if_neg hv]
          simpa using ih data (pos + 1)
    · rw [if_neg hlen, if_neg hlen]
      rfl

theorem applyWrites_eq_foldl (s : Int) (frames : List (Nat × FrameHeader)) (data : List Nat) :
    applyWrites s frames data
      = (frames.flatMap fun ph => calculateGainLocations ph.1 ph.2).foldl
          (fun d loc => writeGainAt d loc (newGain (readGainAt d loc) s)) data := by
  induction frames generalizing data with
  | nil => rfl
  | cons ph rest ih =>
    show applyWrites s rest (writeFrameGains s (calculateGainLocations ph.1 ph.2) data) = _
    rw [ih, List.flatMap_cons, List.foldl_append]
    rfl



theorem scanFrom_locs_props (data : List Nat) :
    ∀ fuel pos,
      (∀ loc ∈ (scanFrom data fuel pos).flatMap fun ph => calculateGainLocations ph.1 ph.2,
        pos + 4 ≤ loc.byteOffset ∧ loc.bitOffset < 8 ∧ loc.byteOffset + 2 ≤ data.length)
      ∧ ((scanFrom data fuel pos).flatMap fun ph =>
          calculateGainLocations ph.1 ph.2).Pairwise
            fun a b => a.byteOffset + 2 ≤ b.byteOffset := by
  intro fuel
  induction fuel with
  | zero => intro pos; simp [scanFrom]
  | succ fuel ih =>
    intro pos
    unfold scanFrom
    by_cases hlen : pos + 4 ≤ data.length
    · rw [if_pos hlen]
      cases hp : parseHeader data pos with
      | none =>
        refine ⟨fun loc hl => ?_, (ih (pos + 1)).2⟩
        have := (ih (pos + 1)).1 loc hl
        omega
      | some h =>
        simp only
        by_cases hv : validFrameAt data (pos + h.frameSize)
        · rw [if_pos hv, List.flatMap_cons]
          have hfr := locProps_of_parse hp
          have hnext := validFrameAt_le hv
          have ihn := ih (pos + h.frameSize)
          constructor
          · intro loc hl
            rcases List.mem_append.mp hl with hl | hl
            · have := hfr.1 loc hl
              omega
            · have := ihn.1 loc hl
              omega
          · rw [List.pairwise_append]
            refine ⟨hfr.2, ihn.2, fun a ha b hb => ?_⟩
            have h1 := hfr.1 a ha
            have h2 := ihn.1 b hb
            omega
        · rw [if_neg hv]
          refine ⟨fun loc hl => ?_, (ih (pos + 1)).2⟩
          have := (ih (pos + 1)).1 loc hl
          omega
    · rw [if_neg hlen]
      simp

theorem readGainAt_lt {data : List Nat} (hB : ByteVec data) (loc : GainLocation) :
    readGainAt data loc < 256 := by
  have hb1 : byteAt data loc.byteOffset < 256 := by
    by_cases h : loc.byteOffset < data.length
    · exact byteAt_lt_of_byteVec hB _ h
    · unfold byteAt
      rw [List.getD_eq_default _ _ (by omega : data.length ≤ loc.byteOffset)]
      norm_num
  have hb2 : byteAt data (loc.byteOffset + 1) < 256 := by
    by_cases h : loc.byteOffset + 1 < data.length
    · exact byteAt_lt_of_byteVec hB _ h
    · unfold byteAt
      rw [List.getD_eq_default _ _ (by omega : data.length ≤ loc.byteOffset + 1)]
      norm_num
  unfold readGainAt
  split_ifs with h1 h2 h3 <;> try omega
  · rcases Nat.lt_or_ge loc.bitOffset 8 with h8 | h8
    · interval_cases hb : loc.bitOffset <;> omega
    · have hz : 8 - loc.bitOffset = 0 := by omega
      rw [hz]
      have hm1 : byteAt data loc.byteOffset % 2 ^ 0 = 0 := by simp [Nat.mod_one]
      rw [hm1]
      have hd1 : byteAt data (loc.byteOffset + 1) / 2 ^ 0 = byteAt data (loc.byteOffset + 1) := by
        simp
      rw [hd1]
      omega
  · rcases Nat.lt_or_ge loc.bitOffset 8 with h8 | h8
    · interval_cases hb : loc.bitOffset <;> omega
    · have hz : 8 - loc.bitOffset = 0 := by omega
      rw [hz]
      have hm1 : byteAt data loc.byteOffset % 2 ^ 0 = 0 := by simp [Nat.mod_one]
      rw [hm1]
      omega

theorem writeGainAt_byteVec {data : List Nat} (hB : ByteVec data) {loc : GainLocation}
    {v : Nat} (hv : v < 256) (hbit : loc.bitOffset < 8) :
    ByteVec (writeGainAt data loc v) := by
  obtain ⟨idx, bit⟩ := loc
  dsimp only at hbit ⊢
  unfold writeGainAt
  dsimp only
  split_ifs with h1 h2 h3
  · exact hB
  · exact byteVec_set hB hv idx
  · have hb1 : byteAt data idx < 256 := byteAt_lt_of_byteVec hB idx (by omega)
    have hb2 : byteAt data (idx + 1) < 256 := byteAt_lt_of_byteVec hB (idx + 1) (by omega)
    refine byteVec_set (byteVec_set hB ?_ idx) ?_ (idx + 1)
    · interval_cases bit <;> omega
    · interval_cases bit <;> omega
  · have hb1 : byteAt data idx < 256 := byteAt_lt_of_byteVec hB idx (by omega)
    refine byteVec_set hB ?_ idx
    interval_cases bit <;> omega

theorem readGainAt_congr {d1 d2 : List Nat} {loc : GainLocation}
    (hlen : d1.length = d2.length)
    (h1 : byteAt d1 loc.byteOffset = byteAt d2 loc.byteOffset)
    (h2 : byteAt d1 (loc.byteOffset + 1) = byteAt d2 (loc.byteOffset + 1)) :
    readGainAt d1 loc = readGainAt d2 loc := by
  unfold readGainAt
  rw [hlen, h1, h2]



theorem foldl_writeStep_spec (f : Nat → Nat) (hf : ∀ v, v < 256 → f v < 256) :
    ∀ (L : List GainLocation) (data : List Nat), ByteVec data →
      (∀ loc ∈ L, loc.bitOffset < 8 ∧ loc.byteOffset + 2 ≤ data.length) →
      L.Pairwise (fun a b => a.byteOffset + 2 ≤ b.byteOffset) →
      (L.foldl (fun d loc => writeGainAt d loc (f (readGainAt d loc))) data).length
          = data.length
      ∧ ByteVec (L.foldl (fun d loc => writeGainAt d loc (f (readGainAt d loc))) data)
      ∧ (∀ j, (∀ loc ∈ L, j < loc.byteOffset ∨ loc.byteOffset + 1 < j) →
          byteAt (L.foldl (fun d loc => writeGainAt d loc (f (readGainAt d loc))) data) j
            = byteAt data j)
      ∧ (∀ loc ∈ L,
          readGainAt (L.foldl (fun d loc => writeGainAt d loc (f (readGainAt d loc))) data) loc
            = f (readGainAt data loc)) := by
  intro L
  induction L with
  | nil => exact fun data hB _ _ => ⟨rfl, hB, fun _ _ => rfl, fun loc hl => absurd hl (by simp)⟩
  | cons loc rest ih =>
    intro data hB hL hP
    have hlocHead := hL loc (List.mem_cons_self _ _)
    have hvlt : f (readGainAt data loc) < 256 := hf _ (readGainAt_lt hB loc)
    have hB1 : ByteVec (writeGainAt data loc (f (readGainAt data loc))) :=
      writeGainAt_byteVec hB hvlt hlocHead.1
    have hlen1 : (writeGainAt data loc (f (readGainAt data loc))).length = data.length :=
      length_writeGainAt data loc _
    have hL1 : ∀ l ∈ rest, l.bitOffset < 8 ∧ l.byteOffset + 2 ≤
        (writeGainAt data loc (f (readGainAt data loc))).length := by
      intro l hl
      have := hL l (List.mem_cons_of_mem _ hl)
      omega
    have hP1 := List.Pairwise.of_cons hP
    have hgap : ∀ l ∈ rest, loc.byteOffset + 2 ≤ l.byteOffset :=
      fun l hl => List.rel_of_pairwise_cons hP hl
    obtain ⟨ihLen, ihBV, ihOut, ihRead⟩ :=
      ih (writeGainAt data loc (f (readGainAt data loc))) hB1 hL1 hP1
    have hstep : (loc :: rest).foldl (fun d l => writeGainAt d l (f (readGainAt d l))) data
        = rest.foldl (fun d l => writeGainAt d l (f (readGainAt d l)))
            (writeGainAt data loc (f (readGainAt data loc))) := rfl
    rw [hstep]
    refine ⟨by rw [ihLen, hlen1], ihBV, ?_, ?_⟩
    · intro j hj
      rw [ihOut j fun l hl => hj l (List.mem_cons_of_mem _ hl)]
      exact byteAt_writeGainAt_outside
        (by have := hj loc (List.mem_cons_self _ _); omega)
    · intro l hl
      rcases List.mem_cons.mp hl with rfl | hl
    -- head location: the remaining writes land at least 2 bytes later
      · have hbytes0 : byteAt (rest.foldl (fun d l => writeGainAt d l (f (readGainAt d l)))
            (writeGainAt data l (f (readGainAt data l)))) l.byteOffset
            = byteAt (writeGainAt data l (f (readGainAt data l))) l.byteOffset := by
          refine ihOut _ fun l2 hl2 => ?_
          have := hgap l2 hl2
          omega
        have hbytes1 : byteAt (rest.foldl (fun d l => writeGainAt d l (f (readGainAt d l)))
            (writeGainAt data l (f (readGainAt data l)))) (l.byteOffset + 1)
            = byteAt (writeGainAt data l (f (readGainAt data l))) (l.byteOffset + 1) := by
          refine ihOut _ fun l2 hl2 => ?_
          have := hgap l2 hl2
          omega
        rw [readGainAt_congr (by rw [ihLen]) hbytes0 hbytes1]
        exact writeGain_read_roundtrip data l _ hvlt hlocHead.1 (Or.inl (by omega))
      · rw [ihRead l hl]
        congr 1
        refine readGainAt_congr hlen1 ?_ ?_ <;>
          · refine byteAt_writeGainAt_outside ?_
            have := hgap l hl
            omega



theorem newGain_lt {v : Nat} (hv : v < 256) (s : Int) : newGain v s < 256 := by
  unfold newGain
  split_ifs <;> omega

theorem newGain_zero (v : Nat) : newGain v 0 = v := by
  unfold newGain
  norm_num

theorem newGain_magnitude {t : Int} (h0 : 0 ≤ t) (h255 : t ≤ 255) (hne : -t ≠ -(2 ^ 31)) :
    ((min (if -t = -(2 ^ 31) then -(2 ^ 31) else - -t) 255).emod 256).toNat = t.toNat := by
  rw [if_neg hne, neg_neg, min_eq_left h255,
    show t.emod 256 = t from Int.emod_eq_of_lt h0 (by omega)]

theorem newGain_cancel {v : Nat} {s : Int} (hv : v < 256)
    (h1 : 0 ≤ (v : Int) + s) (h2 : (v : Int) + s ≤ 255)
    (h3 : 0 ≤ (v : Int) - s) (h4 : (v : Int) - s ≤ 255) :
    newGain (newGain v s) (-s) = v := by
  rcases lt_trichotomy s 0 with hneg | rfl | hpos
  · have hmag : ((min (if s = -(2 ^ 31) then -(2 ^ 31) else -s) 255).emod 256).toNat
        = (-s).toNat := by
      have := newGain_magnitude (t := -s) (by omega) (by omega) (by rw [neg_neg]; omega)
      rwa [neg_neg] at this
    have e1 : newGain v s = v - (-s).toNat := by
      unfold newGain
      rw [if_neg (by omega), hmag]
    rw [e1]
    unfold newGain
    rw [if_pos (by omega : -s > 0), min_eq_left (by omega : -s ≤ 255)]
    omega
  · rw [neg_zero, newGain_zero, newGain_zero]
  · have e1 : newGain v s = v + s.toNat := by
      unfold newGain
      rw [if_pos hpos, min_eq_left (by omega : s ≤ 255)]
      omega
    rw [e1]
    unfold newGain
    rw [if_neg (by omega : ¬ -s > 0), newGain_magnitude (by omega) (by omega) (by omega)]
    omega

theorem applyGain_eq_foldl (data : List Nat) (s : Int) (hs : s ≠ 0) :
    applyGain data s
      = ((scanFrames data).length,
          (gainLocations data).foldl
            (fun d loc => writeGainAt d loc (newGain (readGainAt d loc) s)) data) := by
  unfold applyGain scanFrames
  rw [if_neg hs, applyGainLoop_decomp s (data.length + 1) data (skipId3v2 data)]
  rw [applyWrites_eq_foldl]
  rfl

/-- C1 (amended): applying `s` gain steps and then `-s` restores every
`global_gain` field of the original buffer, provided no field saturates in
either direction and the frame scan of the once-stepped buffer identifies the
same frames as the original scan (which a gain write can defeat by forging a
sync pattern at a rejected candidate's next-frame check). -/
theorem claim_C1_amended (data : List Nat) (s : Int) (hB : ByteVec data)
    (hscan : scanFrames (applyGain data s).2 = scanFrames data)
    (hsat : ∀ v ∈ gainValues data,
      0 ≤ (v : Int) + s ∧ (v : Int) + s ≤ 255 ∧ 0 ≤ (v : Int) - s ∧ (v : Int) - s ≤ 255) :
    ∀ loc ∈ gainLocations data,
      readGainAt (applyGain (applyGain data s).2 (-s)).2 loc = readGainAt data loc := by
  by_cases hs : s = 0
  · subst hs
    intro loc _
    simp [applyGain]
  · have hsneg : -s ≠ 0 := by omega
    have hprops := scanFrom_locs_props data (data.length + 1) (skipId3v2 data)
    have hL : ∀ loc ∈ gainLocations data,
        loc.bitOffset < 8 ∧ loc.byteOffset + 2 ≤ data.length := by
      intro loc hl
      have := hprops.1 loc hl
      exact ⟨this.2.1, this.2.2⟩
    have hP : (gainLocations data).Pairwise (fun a b => a.byteOffset + 2 ≤ b.byteOffset) :=
      hprops.2
    obtain ⟨len1, hB1, out1, read1⟩ :=
      foldl_writeStep_spec (fun v => newGain v s) (fun v hv => newGain_lt hv s)
        (gainLocations data) data hB hL hP
    rw [applyGain_eq_foldl data s hs] at hscan ⊢
    simp only at hscan ⊢
    set d1 := (gainLocations data).foldl
      (fun d loc => writeGainAt d loc (newGain (readGainAt d loc) s)) data with hd1
    have hL1 : ∀ loc ∈ gainLocations d1,
        loc.bitOffset < 8 ∧ loc.byteOffset + 2 ≤ d1.length := by
      have hprops1 := scanFrom_locs_props d1 (d1.length + 1) (skipId3v2 d1)
      intro loc hl
      have := hprops1.1 loc hl
      exact ⟨this.2.1, this.2.2⟩
    have hlocs1 : gainLocations d1 = gainLocations data := by
      unfold gainLocations
      rw [hscan]
    rw [applyGain_eq_foldl d1 (-s) hsneg]
    simp only
    rw [hlocs1]
    obtain ⟨len2, hB2, out2, read2⟩ :=
      foldl_writeStep_spec (fun v => newGain v (-s)) (fun v hv => newGain_lt hv (-s))
        (gainLocations data) d1 hB1 (by rw [← hlocs1] at hL ⊢; rw [len1]; exact fun loc hl =>
          ⟨(hL loc hl).1, by have := (hL loc hl).2; omega⟩) hP
    intro loc hloc
    rw [read2 loc hloc, read1 loc hloc]
    have hv := readGainAt_lt hB loc
    have hmem : readGainAt data loc ∈ gainValues data := List.mem_map_of_mem _ hloc
    obtain ⟨s1, s2, s3, s4⟩ := hsat _ hmem
    exact newGain_cancel hv s1 s2 s3 s4



theorem claim_C1_counterexample :
    (∀ v ∈ gainValues [255, 243, 20, 192, 0, 0, 0, 1, 144, 0, 0, 0, 0, 0, 0, 0, 0,
        255, 243, 20, 192, 0, 0, 0, 255, 192, 0, 0, 0, 0, 0, 0, 0, 0, 0, 0, 0, 0, 0, 0, 0, 0],
      0 ≤ (v : Int) + 15 ∧ (v : Int) + 15 ≤ 255 ∧ 0 ≤ (v : Int) - 15 ∧ (v : Int) - 15 ≤ 255)
    ∧ (∀ v ∈ gainValues (applyGain [255, 243, 20, 192, 0, 0, 0, 1, 144, 0, 0, 0, 0, 0, 0, 0, 0,
        255, 243, 20, 192, 0, 0, 0, 255, 192, 0, 0, 0, 0, 0, 0, 0, 0, 0, 0, 0, 0, 0, 0, 0, 0]
        15).2,
      0 ≤ (v : Int) + 15 ∧ (v : Int) + 15 ≤ 255 ∧ 0 ≤ (v : Int) - 15 ∧ (v : Int) - 15 ≤ 255)
    ∧ ¬ (∀ loc ∈ gainLocations [255, 243, 20, 192, 0, 0, 0, 1, 144, 0, 0, 0, 0, 0, 0, 0, 0,
        255, 243, 20, 192, 0, 0, 0, 255, 192, 0, 0, 0, 0, 0, 0, 0, 0, 0, 0, 0, 0, 0, 0, 0, 0],
      readGainAt (applyGain (applyGain [255, 243, 20, 192, 0, 0, 0, 1, 144, 0, 0, 0, 0, 0, 0,
          0, 0, 255, 243, 20, 192, 0, 0, 0, 255, 192, 0, 0, 0, 0, 0, 0, 0, 0, 0, 0, 0, 0, 0,
          0, 0, 0] 15).2 (-15)).2 loc
        = readGainAt [255, 243, 20, 192, 0, 0, 0, 1, 144, 0, 0, 0, 0, 0, 0, 0, 0,
          255, 243, 20, 192, 0, 0, 0, 255, 192, 0, 0, 0, 0, 0, 0, 0, 0, 0, 0, 0, 0, 0, 0, 0,
          0] loc) := by decide

theorem claim_C1_witness :
    readGainAt (applyGain (applyGain [255, 243, 20, 192, 0, 0, 0, 1, 144, 0, 0, 0, 0, 0, 0,
        0, 0, 0, 0, 0, 0, 0, 0, 0] 5).2 (-5)).2 ⟨7, 6⟩ = 100 := by
  have h := claim_C1_amended [255, 243, 20, 192, 0, 0, 0, 1, 144, 0, 0, 0, 0, 0, 0,
      0, 0, 0, 0, 0, 0, 0, 0, 0] 5 (by decide) (by decide) (by decide)
  rw [h ⟨7, 6⟩ (by decide)]
  decide

/-!
### Channel-restricted gain (C6)
-/

theorem channelLocations_sub {ch : Channel} {L : List GainLocation} {loc : GainLocation}
    (h : loc ∈ channelLocations ch L) : loc ∈ L := by
  unfold channelLocations at h
  rw [List.mem_map] at h
  obtain ⟨p, hp, rfl⟩ := h
  have := (List.mem_filter.mp hp).1
  have h2 := List.mem_enum_iff_getElem?.mp this
  exact List.getElem?_mem h2

theorem mem_channelLocations {ch : Channel} {L : List GainLocation} {loc : GainLocation}
    (h : loc ∈ channelLocations ch L) :
    ∃ k, k % 2 = ch.index ∧ ∃ hk : k < L.length, L.get ⟨k, hk⟩ = loc := by
  unfold channelLocations at h
  rw [List.mem_map] at h
  obtain ⟨p, hp, rfl⟩ := h
  obtain ⟨hpe, hpar⟩ := List.mem_filter.mp hp
  have h2 := List.mem_enum_iff_getElem?.mp hpe
  obtain ⟨hk, hval⟩ := List.getElem?_eq_some.mp h2
  exact ⟨p.1, by simpa using hpar, hk, by simpa [List.get_eq_getElem] using hval⟩

theorem length_writeFrameGainsChannel (s : Int) (ch : Channel) (L : List GainLocation)
    (data : List Nat) : (writeFrameGainsChannel s ch L data).length = data.length :=
  writeFrameGains_length s _ data

theorem byteAt_writeFrameGainsChannel_outside {s : Int} {ch : Channel}
    {L : List GainLocation} {data : List Nat} {j : Nat}
    (h : ∀ loc ∈ channelLocations ch L, j ≠ loc.byteOffset ∧ j ≠ loc.byteOffset + 1) :
    byteAt (writeFrameGainsChannel s ch L data) j = byteAt data j :=
  byteAt_writeFrameGains_outside h

theorem channelFramesFold_length (s : Int) (ch : Channel)
    (frames : List (Nat × FrameHeader)) (data : List Nat) :
    (frames.foldl
      (fun d ph => writeFrameGainsChannel s ch (calculateGainLocations ph.1 ph.2) d)
      data).length = data.length := by
  induction frames generalizing data with
  | nil => rfl
  | cons ph rest ih =>
    show (rest.foldl _ (writeFrameGainsChannel s ch _ data)).length = _
    rw [ih, length_writeFrameGainsChannel]

theorem byteAt_channelFramesFold_outside {s : Int} {ch : Channel}
    {frames : List (Nat × FrameHeader)} {data : List Nat} {j : Nat}
    (h : ∀ loc ∈ frames.flatMap fun ph => calculateGainLocations ph.1 ph.2,
      j ≠ loc.byteOffset ∧ j ≠ loc.byteOffset + 1) :
    byteAt (frames.foldl
      (fun d ph => writeFrameGainsChannel s ch (calculateGainLocations ph.1 ph.2) d)
      data) j = byteAt data j := by
  induction frames generalizing data with
  | nil => rfl
  | cons ph rest ih =>
    show byteAt (rest.foldl _ (writeFrameGainsChannel s ch _ data)) j = _
    rw [ih fun loc hl => h loc (by rw [List.flatMap_cons]; exact List.mem_append_right _ hl),
      byteAt_writeFrameGainsChannel_outside fun loc hl =>
        h loc (by
          rw [List.flatMap_cons]
          exact List.mem_append_left _ (channelLocations_sub hl))]




theorem byteAt_writeFrameGainsChannel_at_other {s : Int} {ch : Channel}
    {L : List GainLocation} {d : List Nat}
    (hP : L.Pairwise fun a b => a.byteOffset + 2 ≤ b.byteOffset)
    {i : Nat} (hi : i < L.length) (hpar : i % 2 ≠ ch.index) {j : Nat}
    (hj : j = (L.get ⟨i, hi⟩).byteOffset ∨ j = (L.get ⟨i, hi⟩).byteOffset + 1) :
    byteAt (writeFrameGainsChannel s ch L d) j = byteAt d j := by
  refine byteAt_writeFrameGainsChannel_outside fun loc hl => ?_
  obtain ⟨k, hkpar, hk, rfl⟩ := mem_channelLocations hl
  have hki : k ≠ i := fun heq => hpar (heq ▸ hkpar)
  simp only [List.get_eq_getElem] at hj ⊢
  rcases Nat.lt_or_ge k i with hlt | hge
  · have := List.pairwise_iff_getElem.mp hP k i hk hi hlt
    omega
  · have := List.pairwise_iff_getElem.mp hP i k hi hk (by omega)
    omega

theorem scanFold_channel_preserves (s : Int) (ch : Channel) (data : List Nat) :
    ∀ fuel pos d, d.length = data.length →
      ∀ ph ∈ scanFrom data fuel pos, ∀ i, i % 2 ≠ ch.index →
        ∀ hi : i < (calculateGainLocations ph.1 ph.2).length,
        readGainAt ((scanFrom data fuel pos).foldl
            (fun d ph => writeFrameGainsChannel s ch (calculateGainLocations ph.1 ph.2) d) d)
            ((calculateGainLocations ph.1 ph.2).get ⟨i, hi⟩)
          = readGainAt d ((calculateGainLocations ph.1 ph.2).get ⟨i, hi⟩) := by
  intro fuel
  induction fuel with
  | zero => intro pos d _ ph hph; exact absurd hph (by simp [scanFrom])
  | succ fuel ih =>
    intro pos d hlen
    unfold scanFrom
    by_cases hc : pos + 4 ≤ data.length
    · rw [if_pos hc]
      cases hp : parseHeader data pos with
      | none => exact ih (pos + 1) d hlen
      | some h =>
        simp only
        by_cases hv : validFrameAt data (pos + h.frameSize)
        · rw [if_pos hv]
          intro ph hph i hpar hi
          have hfr := locProps_of_parse hp
          have hrest := scanFrom_locs_props data fuel (pos + h.frameSize)
          rw [List.foldl_cons]
          rcases List.mem_cons.mp hph with heq | hph2
          · -- the frame at `pos` itself: its own write skips the other channel,
            -- and the later frames' writes land past the end of this frame
            subst heq
            dsimp only at hi ⊢
            have hloc := hfr.1 ((calculateGainLocations pos h).get ⟨i, hi⟩)
              (List.get_mem _ _ _)
            have hout : ∀ j, (j = ((calculateGainLocations pos h).get ⟨i, hi⟩).byteOffset
                ∨ j = ((calculateGainLocations pos h).get ⟨i, hi⟩).byteOffset + 1) →
                byteAt ((scanFrom data fuel (pos + h.frameSize)).foldl
                  (fun d ph => writeFrameGainsChannel s ch (calculateGainLocations ph.1 ph.2) d)
                  (writeFrameGainsChannel s ch (calculateGainLocations pos h) d)) j
                  = byteAt (writeFrameGainsChannel s ch (calculateGainLocations pos h) d)
                      j := by
              intro j hj
              refine byteAt_channelFramesFold_outside fun loc hl => ?_
              have := hrest.1 loc hl
              omega
            rw [readGainAt_congr (by rw [channelFramesFold_length]) (hout _ (Or.inl rfl))
              (hout _ (Or.inr rfl))]
            exact readGainAt_congr (length_writeFrameGainsChannel s ch _ d)
              (byteAt_writeFrameGainsChannel_at_other hfr.2 hi hpar (Or.inl rfl))
              (byteAt_writeFrameGainsChannel_at_other hfr.2 hi hpar (Or.inr rfl))
          · -- a later frame: the write of the frame at `pos` stays below it
            have hmem : (calculateGainLocations ph.1 ph.2).get ⟨i, hi⟩
                ∈ (scanFrom data fuel (pos + h.frameSize)).flatMap
                  fun ph => calculateGainLocations ph.1 ph.2 :=
              List.mem_flatMap.mpr ⟨ph, hph2, List.get_mem _ _ _⟩
            have hlocge := (scanFrom_locs_props data fuel (pos + h.frameSize)).1 _ hmem
            have hheadbnd := (locProps_of_parse hp).1
            have hW : ∀ j, (j = ((calculateGainLocations ph.1 ph.2).get ⟨i, hi⟩).byteOffset
                ∨ j = ((calculateGainLocations ph.1 ph.2).get ⟨i, hi⟩).byteOffset + 1) →
                byteAt (writeFrameGainsChannel s ch (calculateGainLocations pos h) d) j
                  = byteAt d j := by
              intro j hj
              refine byteAt_writeFrameGainsChannel_outside fun loc hl => ?_
              have := hheadbnd loc (channelLocations_sub hl)
              omega
            rw [ih (pos + h.frameSize)
              (writeFrameGainsChannel s ch (calculateGainLocations pos h) d)
              (by rw [length_writeFrameGainsChannel]; exact hlen) ph hph2 i hpar hi]
            exact readGainAt_congr (length_writeFrameGainsChannel s ch _ d)
              (hW _ (Or.inl rfl)) (hW _ (Or.inr rfl))
        · rw [if_neg hv]
          exact ih (pos + 1) d hlen
    · rw [if_neg hc]
      intro ph hph
      exact absurd hph (by simp)



theorem Channel.other_index_ne (ch : Channel) : ch.other.index ≠ ch.index := by
  cases ch <;> decide

/-- C6 (confirmed, spec-modelled): `apply_gain_channel` on a file whose
reported channel mode is mono fails with the mono-specific error, for every
channel choice and step count; on a file that is not mono, a successful call
leaves every gain field belonging to the other channel unchanged — in
particular a left-channel application leaves every right-channel field
intact. -/
theorem claim_C6 (data : List Nat) (ch : Channel) (s : Int) :
    (fileChannelMode data = some ChannelMode.mono →
      applyGainChannel data ch s = .error "Cannot apply channel-specific gain to a mono file")
    ∧ (∀ m, fileChannelMode data = some m → m ≠ ChannelMode.mono →
        ∀ n d1, applyGainChannel data ch s = .ok (n, d1) →
          ∀ ph ∈ scanFrames data,
            ∀ loc ∈ channelLocations ch.other (calculateGainLocations ph.1 ph.2),
              readGainAt d1 loc = readGainAt data loc) := by
  constructor
  · intro hmono
    unfold fileChannelMode at hmono
    unfold applyGainChannel
    cases hscan : scanFrames data with
    | nil => rw [hscan] at hmono; simp at hmono
    | cons ph0 rest =>
      obtain ⟨p0, h0⟩ := ph0
      rw [hscan] at hmono
      simp only [List.head?, Option.map_some] at hmono
      simp only
      rw [if_pos (Option.some.inj hmono)]
  · intro m hm hmne n d1 happ ph hph loc hloc
    obtain ⟨k, hkpar, hk, hget⟩ := mem_channelLocations hloc
    have hkne : k % 2 ≠ ch.index := by
      rw [hkpar]
      exact Channel.other_index_ne ch
    cases hscan : scanFrames data with
    | nil =>
      unfold applyGainChannel at happ
      rw [hscan] at happ
      exact Except.noConfusion happ
    | cons ph0 rest =>
      obtain ⟨p0, h0⟩ := ph0
      have hmode : h0.channelMode = m := by
        unfold fileChannelMode at hm
        rw [hscan] at hm
        simpa [List.head?] using hm
      unfold applyGainChannel at happ
      rw [hscan] at happ
      simp only at happ
      rw [if_neg (by rw [hmode]; exact hmne)] at happ
      by_cases hs : s = 0
      · rw [if_pos hs] at happ
        obtain ⟨-, rfl⟩ := Prod.mk.injEq .. ▸ Except.ok.inj happ
        rfl
      · rw [if_neg hs] at happ
        have hd1 : d1 = ((p0, h0) :: rest).foldl
            (fun d ph => writeFrameGainsChannel s ch (calculateGainLocations ph.1 ph.2) d)
            data := (Prod.mk.injEq .. ▸ Except.ok.inj happ).2.symm
        have hpres := scanFold_channel_preserves s ch data (data.length + 1)
          (skipId3v2 data) data rfl
        rw [show scanFrom data (data.length + 1) (skipId3v2 data) = (p0, h0) :: rest
          from hscan] at hpres
        have := hpres ph (by rw [hscan] at hph; exact hph) k hkne hk
        rw [hget] at this
        rw [hd1]
        exact this

theorem claim_C6_witness :
    applyGainChannel [255, 243, 20, 192, 0, 0, 0, 0, 0, 0, 0, 0,
        0, 0, 0, 0, 0, 0, 0, 0, 0, 0, 0, 0] Channel.left 3
      = .error "Cannot apply channel-specific gain to a mono file"
    ∧ readGainAt [255, 243, 20, 0, 0, 0, 0, 0, 6, 0, 0, 0, 0, 0, 0, 0, 0, 0, 0, 0, 0, 0, 0, 0]
        ⟨15, 6⟩
      = readGainAt [255, 243, 20, 0, 0, 0, 0, 0, 0, 0, 0, 0, 0, 0, 0, 0, 0, 0, 0, 0, 0, 0, 0, 0]
        ⟨15, 6⟩ := by
  constructor
  · exact (claim_C6 [255, 243, 20, 192, 0, 0, 0, 0, 0, 0, 0, 0,
      0, 0, 0, 0, 0, 0, 0, 0, 0, 0, 0, 0] Channel.left 3).1 (by decide)
  · exact (claim_C6 [255, 243, 20, 0, 0, 0, 0, 0, 0, 0, 0, 0, 0, 0, 0, 0, 0, 0, 0, 0, 0, 0, 0, 0]
        Channel.left 3).2 ChannelMode.stereo (by decide) (by decide) 1
      [255, 243, 20, 0, 0, 0, 0, 0, 6, 0, 0, 0, 0, 0, 0, 0, 0, 0, 0, 0, 0, 0, 0, 0] (by rfl)
      (0, mkFrameHeader MpegVersion.mpeg2 false 1 1 false ChannelMode.stereo) (by decide)
      ⟨15, 6⟩ (by decide)

/-!
### APEv2 tag serialization and undo (C4, C5, C10)
-/

theorem drop_append_left {a : List Nat} (b : List Nat) {n : Nat} (h : a.length = n) :
    (a ++ b).drop n = b := by
  subst h; exact List.drop_left a b

theorem byteAt_append_right {a : List Nat} {i : Nat} (b : List Nat) (h : a.length ≤ i) :
    byteAt (a ++ b) i = byteAt b (i - a.length) := by
  unfold byteAt
  rw [List.getD_append_right _ _ _ _ h]

theorem readU32LE_append_u32le (a : List Nat) (n : Nat) (rest : List Nat) (i : Nat)
    (h : a.length = i) :
    readU32LE (a ++ (u32le n ++ rest)) i
      = n % 256 + n / 2 ^ 8 % 256 * 2 ^ 8 + n / 2 ^ 16 % 256 * 2 ^ 16
        + n / 2 ^ 24 % 256 * 2 ^ 24 := by
  subst h
  have b0 : byteAt (a ++ (u32le n ++ rest)) a.length = n % 256 := by
    rw [byteAt_append_right _ (Nat.le_refl _), Nat.sub_self]; rfl
  have b1 : byteAt (a ++ (u32le n ++ rest)) (a.length + 1) = n / 2 ^ 8 % 256 := by
    rw [byteAt_append_right _ (by omega)]
    rw [show a.length + 1 - a.length = 1 by omega]
    rfl
  have b2 : byteAt (a ++ (u32le n ++ rest)) (a.length + 2) = n / 2 ^ 16 % 256 := by
    rw [byteAt_append_right _ (by omega)]
    rw [show a.length + 2 - a.length = 2 by omega]
    rfl
  have b3 : byteAt (a ++ (u32le n ++ rest)) (a.length + 3) = n / 2 ^ 24 % 256 := by
    rw [byteAt_append_right _ (by omega)]
    rw [show a.length + 3 - a.length = 3 by omega]
    rfl
  unfold readU32LE
  rw [b0, b1, b2, b3]

/-- C5 counterexample: an empty tag serializes to no bytes at all, so
`write_ape_tag` with an empty tag emits neither a header nor a footer —
the file receives no `APETAGEX` preamble anywhere. -/
theorem claim_C5_counterexample :
    serializeApeTag ⟨[]⟩ = [] ∧ writeApeTagData [1, 2, 3] ⟨[]⟩ = [1, 2, 3] := by
  decide

set_option maxHeartbeats 1000000 in
/-- C5 (amended): for every NON-empty APEv2 tag whose serialized items
block plus 32 fits in a `u32`, `write_ape_tag` splices into the file the
serialized tag: its length is the items' length plus 64, its first 32
bytes (header) and its trailing 32 bytes (footer) each begin with the
preamble `APETAGEX`, each carry at field offset 12 a recomputed tag size
equal to the serialized items' length plus 32, and each have the
header-present flag (bit 31 of the flags field at offset 20) set.  An
empty tag serializes to nothing (see the counterexample). -/
theorem claim_C5_amended (data : List Nat) (tag : ApeTag)
    (hne : tag.isEmpty = false)
    (hfit : (serializeApeItems tag.items).length + 32 < 2 ^ 32) :
    (∃ pre post, writeApeTagData data tag = pre ++ serializeApeTag tag ++ post)
    ∧ (serializeApeTag tag).length = (serializeApeItems tag.items).length + 64
    ∧ slice (serializeApeTag tag) 0 8 = apePreamble
    ∧ readU32LE (serializeApeTag tag) 12 = (serializeApeItems tag.items).length + 32
    ∧ readU32LE (serializeApeTag tag) 20 / 2 ^ 31 % 2 = 1
    ∧ slice ((serializeApeTag tag).drop ((serializeApeItems tag.items).length + 32)) 0 8
        = apePreamble
    ∧ readU32LE ((serializeApeTag tag).drop ((serializeApeItems tag.items).length + 32)) 12
        = (serializeApeItems tag.items).length + 32
    ∧ readU32LE ((serializeApeTag tag).drop ((serializeApeItems tag.items).length + 32)) 20
        / 2 ^ 31 % 2 = 1 := by
  have hs : serializeApeTag tag
      = apePreamble ++ u32le 2000 ++ u32le ((serializeApeItems tag.items).length + 32)
        ++ u32le tag.items.length ++ u32le (2 ^ 31 + 2 ^ 29) ++ List.replicate 8 0
        ++ serializeApeItems tag.items
        ++ apePreamble ++ u32le 2000 ++ u32le ((serializeApeItems tag.items).length + 32)
        ++ u32le tag.items.length ++ u32le (2 ^ 31) ++ List.replicate 8 0 := by
    simp [serializeApeTag, hne]
  have hdrop : (serializeApeTag tag).drop ((serializeApeItems tag.items).length + 32)
      = apePreamble ++ u32le 2000 ++ u32le ((serializeApeItems tag.items).length + 32)
        ++ u32le tag.items.length ++ u32le (2 ^ 31) ++ List.replicate 8 0 := by
    have hs2 : serializeApeTag tag
        = (apePreamble ++ u32le 2000 ++ u32le ((serializeApeItems tag.items).length + 32)
            ++ u32le tag.items.length ++ u32le (2 ^ 31 + 2 ^ 29) ++ List.replicate 8 0
            ++ serializeApeItems tag.items)
          ++ (apePreamble ++ u32le 2000 ++ u32le ((serializeApeItems tag.items).length + 32)
            ++ u32le tag.items.length ++ u32le (2 ^ 31) ++ List.replicate 8 0) := by
      rw [hs]; simp [List.append_assoc]
    rw [hs2]
    exact drop_append_left _ (by
      simp only [List.length_append, apePreamble, u32le, List.length_cons, List.length_nil,
        List.length_replicate]
      omega)
  refine ⟨?_, ?_, ?_, ?_, ?_, ?_, ?_, ?_⟩
  · unfold writeApeTagData
    by_cases hc : 128 ≤ (removeApeTag data).length
        ∧ slice (removeApeTag data) ((removeApeTag data).length - 128) 3 = id3v1Marker
    · exact ⟨(removeApeTag data).take ((removeApeTag data).length - 128),
        (removeApeTag data).drop ((removeApeTag data).length - 128),
        by simp only []; rw [if_pos hc]⟩
    · exact ⟨removeApeTag data, [],
        by simp only []; rw [if_neg hc, List.append_nil]⟩
  · rw [hs]
    simp only [List.length_append, apePreamble, u32le, List.length_cons, List.length_nil,
      List.length_replicate]
    omega
  · rw [hs]; rfl
  · have hg : serializeApeTag tag
        = (apePreamble ++ u32le 2000)
          ++ (u32le ((serializeApeItems tag.items).length + 32)
            ++ (u32le tag.items.length ++ u32le (2 ^ 31 + 2 ^ 29) ++ List.replicate 8 0
              ++ serializeApeItems tag.items ++ apePreamble ++ u32le 2000
              ++ u32le ((serializeApeItems tag.items).length + 32)
              ++ u32le tag.items.length ++ u32le (2 ^ 31) ++ List.replicate 8 0)) := by
      rw [hs]; simp [List.append_assoc]
    rw [hg, readU32LE_append_u32le _ _ _ _ (by rfl)]
    omega
  · have hg : serializeApeTag tag
        = (apePreamble ++ u32le 2000 ++ u32le ((serializeApeItems tag.items).length + 32)
            ++ u32le tag.items.length)
          ++ (u32le (2 ^ 31 + 2 ^ 29)
            ++ (List.replicate 8 0 ++ serializeApeItems tag.items ++ apePreamble ++ u32le 2000
              ++ u32le ((serializeApeItems tag.items).length + 32)
              ++ u32le tag.items.length ++ u32le (2 ^ 31) ++ List.replicate 8 0)) := by
      rw [hs]; simp [List.append_assoc]
    rw [hg, readU32LE_append_u32le _ _ _ _ (by rfl)]
    decide
  · rw [hdrop]; rfl
  · have hg : (serializeApeTag tag).drop ((serializeApeItems tag.items).length + 32)
        = (apePreamble ++ u32le 2000)
          ++ (u32le ((serializeApeItems tag.items).length + 32)
            ++ (u32le tag.items.length ++ u32le (2 ^ 31) ++ List.replicate 8 0)) := by
      rw [hdrop]; simp [List.append_assoc]
    rw [hg, readU32LE_append_u32le _ _ _ _ (by rfl)]
    omega
  · have hg : (serializeApeTag tag).drop ((serializeApeItems tag.items).length + 32)
        = (apePreamble ++ u32le 2000 ++ u32le ((serializeApeItems tag.items).length + 32)
            ++ u32le tag.items.length)
          ++ (u32le (2 ^ 31) ++ List.replicate 8 0) := by
      rw [hdrop]; simp [List.append_assoc]
    rw [hg, readU32LE_append_u32le _ _ _ _ (by rfl)]
    decide

/-- C5 witness: a concrete one-item tag (key `"K"`, value `"X"`, 11 item
bytes) is non-empty, its serialization carries tag size 43 = 11 + 32 at
offset 12, and begins with the preamble. -/
theorem claim_C5_witness :
    (⟨[⟨[75], [88]⟩]⟩ : ApeTag).isEmpty = false
    ∧ readU32LE (serializeApeTag ⟨[⟨[75], [88]⟩]⟩) 12 = 43
    ∧ slice (serializeApeTag ⟨[⟨[75], [88]⟩]⟩) 0 8 = apePreamble := by
  refine ⟨by decide, ?_, ?_⟩
  · exact ((claim_C5_amended [9] ⟨[⟨[75], [88]⟩]⟩ (by decide) (by decide)).2.2.2.1).trans
      (by decide)
  · exact (claim_C5_amended [9] ⟨[⟨[75], [88]⟩]⟩ (by decide) (by decide)).2.2.1

/-- C4 (confirmed): `undo_gain` errors exactly when the file has no APEv2
tag or the tag yields no `MP3GAIN_UNDO` step count; an undo value of 0
succeeds as a no-op reporting 0 frames; otherwise it applies the negated
recorded step count via `apply_gain`, removes the `MP3GAIN_UNDO` and
`MP3GAIN_MINMAX` keys, and deletes the tag entirely when it became empty
(else rewrites the reduced tag). -/
theorem claim_C4 (data : List Nat) :
    ((∃ msg, undoGain data = .error msg)
      ↔ readApeTag data = none
        ∨ ∃ tag, readApeTag data = some tag ∧ tag.getUndoGain = none)
    ∧ (∀ tag : ApeTag, readApeTag data = some tag → tag.getUndoGain = some 0 →
        undoGain data = .ok (0, data))
    ∧ (∀ (tag : ApeTag) (u : Int), readApeTag data = some tag →
        tag.getUndoGain = some u → u ≠ 0 →
        undoGain data =
          if ((tag.removeKey tagMp3gainUndo).removeKey tagMp3gainMinmax).isEmpty then
            .ok ((applyGain data (i32Neg u)).1, removeApeTag (applyGain data (i32Neg u)).2)
          else
            .ok ((applyGain data (i32Neg u)).1,
              writeApeTagData (applyGain data (i32Neg u)).2
                ((tag.removeKey tagMp3gainUndo).removeKey tagMp3gainMinmax))) := by
  refine ⟨⟨?_, ?_⟩, ?_, ?_⟩
  · rintro ⟨msg, hmsg⟩
    cases hr : readApeTag data with
    | none => exact Or.inl rfl
    | some tag =>
      cases hg : tag.getUndoGain with
      | none => exact Or.inr ⟨tag, rfl, hg⟩
      | some u =>
        exfalso
        unfold undoGain at hmsg
        rw [hr] at hmsg
        simp only [] at hmsg
        rw [hg] at hmsg
        simp only [] at hmsg
        split_ifs at hmsg
  · rintro (hr | ⟨tag, hr, hg⟩)
    · exact ⟨"No APE tag found - cannot undo", by unfold undoGain; rw [hr]⟩
    · refine ⟨"No MP3GAIN_UNDO tag found - cannot undo", ?_⟩
      unfold undoGain
      rw [hr]
      simp only []
      rw [hg]
  · intro tag hr hg
    unfold undoGain
    rw [hr]
    simp only []
    rw [hg]
    simp only []
    rw [if_pos trivial]
  · intro tag u hr hg hu
    unfold undoGain
    rw [hr]
    simp only []
    rw [hg]
    simp only []
    rw [if_neg hu]

/-- C4 witness: a file `[0] ++ tag` whose `MP3GAIN_UNDO` value
`"+002,+002,N"` parses to 2: `undo_gain` applies `-2` (no frames exist, so
0 frames are modified), both keys are removed, the tag becomes empty, and
the tag block is deleted, leaving the bare audio byte. -/
theorem claim_C4_witness :
    undoGain (0 :: serializeApeTag
        ⟨[⟨tagMp3gainUndo, [43, 48, 48, 50, 44, 43, 48, 48, 50, 44, 78]⟩]⟩)
      = .ok (0, [0]) := by
  have h := (claim_C4 (0 :: serializeApeTag
      ⟨[⟨tagMp3gainUndo, [43, 48, 48, 50, 44, 43, 48, 48, 50, 44, 78]⟩]⟩)).2.2
    ⟨[⟨tagMp3gainUndo, [43, 48, 48, 50, 44, 43, 48, 48, 50, 44, 78]⟩]⟩ 2
    (by decide) (by decide) (by decide)
  exact h.trans (by rfl)

/-- C10 (confirmed): when the APEv2 tag's `MP3GAIN_UNDO` value parses to
0, `undo_gain` succeeds reporting 0 modified frames and returns the buffer
completely unchanged — no gain field is touched and the tag, including
both MP3Gain keys, stays exactly as it was. -/
theorem claim_C10 (data : List Nat) (tag : ApeTag)
    (h1 : readApeTag data = some tag) (h2 : tag.getUndoGain = some 0) :
    undoGain data = .ok (0, data) := by
  unfold undoGain
  rw [h1]
  simp only []
  rw [h2]
  simp only []
  rw [if_pos trivial]

/-- C10 witness: a file `[1] ++ tag` whose `MP3GAIN_UNDO` value `"0"`
parses to 0: `undo_gain` returns the identical buffer with 0 frames. -/
theorem claim_C10_witness :
    undoGain (1 :: serializeApeTag ⟨[⟨tagMp3gainUndo, [48]⟩]⟩)
      = .ok (0, 1 :: serializeApeTag ⟨[⟨tagMp3gainUndo, [48]⟩]⟩) :=
  claim_C10 _ ⟨[⟨tagMp3gainUndo, [48]⟩]⟩ (by decide) (by decide)


/-!
### Loudness histogram percentile scan (C8)
-/

theorem exp2Floor_pos_eval (q : ℚ) (m : Nat)
    (h1 : 1 ≤ q) (h2 : Nat.log2 (Int.toNat ⌊q⌋) = m) :
    exp2Floor q = (m : Int) := by
  unfold exp2Floor
  rw [if_pos h1, h2]

theorem exp2Floor_neg_eval (q : ℚ) (m : Nat)
    (h1 : ¬ 1 ≤ q) (h2 : Nat.log2 (Int.toNat ⌊q⁻¹⌋) = m)
    (h3 : ¬ (2 : ℚ) ^ (-(m : Int)) ≤ q) :
    exp2Floor q = -(m : Int) - 1 := by
  unfold exp2Floor
  rw [if_neg h1]
  simp only [h2]
  rw [if_neg h3]

theorem nearestF64Pos_eval (q : ℚ) (e : Int) (n : Int)
    (hq : ¬ q ≤ 0) (he : exp2Floor q = e)
    (hn : ⌊q * (2 : ℚ) ^ ((52 : Int) - e)⌋ = n)
    (hfrac : q * (2 : ℚ) ^ ((52 : Int) - e) - (n : ℚ) < 1 / 2) :
    nearestF64Pos q = (n : ℚ) * (2 : ℚ) ^ (e - 52) := by
  unfold nearestF64Pos
  rw [if_neg hq]
  simp only [he, hn]
  rw [if_pos hfrac]

theorem rmsPercentileF64_eval : rmsPercentileF64 = 4278419646001971 / 2 ^ 52 := by
  have he : exp2Floor (19 / 20 : ℚ) = -1 := by
    refine (exp2Floor_neg_eval _ 0 (by norm_num) ?_ (by norm_num)).trans (by norm_num)
    rw [show ((19 : ℚ) / 20)⁻¹ = 20 / 19 by norm_num]
    rw [show ⌊(20 / 19 : ℚ)⌋ = 1 by rw [Int.floor_eq_iff]; constructor <;> norm_num]
    simp [Nat.log2]
  unfold rmsPercentileF64 nearestF64
  rw [if_neg (by norm_num), if_neg (by norm_num)]
  refine (nearestF64Pos_eval _ (-1) 8556839292003942 (by norm_num) he ?_ ?_).trans (by norm_num)
  · rw [Int.floor_eq_iff]; constructor <;> norm_num
  · norm_num

theorem oneMinusPercentileF64_eval : oneMinusPercentileF64 = 225179981368525 / 2 ^ 52 := by
  have h1 : (1 : ℚ) - rmsPercentileF64 = 225179981368525 / 2 ^ 52 := by
    rw [rmsPercentileF64_eval]; norm_num
  have he : exp2Floor (225179981368525 / 2 ^ 52 : ℚ) = -5 := by
    refine (exp2Floor_neg_eval _ 4 (by norm_num) ?_ (by norm_num)).trans (by norm_num)
    rw [show ((225179981368525 / 2 ^ 52 : ℚ))⁻¹ = 2 ^ 52 / 225179981368525 by norm_num]
    rw [show ⌊((2 : ℚ) ^ 52 / 225179981368525 : ℚ)⌋ = 19 by
      rw [Int.floor_eq_iff]; constructor <;> norm_num]
    simp [Nat.log2]
  unfold oneMinusPercentileF64
  rw [h1]
  unfold nearestF64
  rw [if_neg (by norm_num), if_neg (by norm_num)]
  refine (nearestF64Pos_eval _ (-5) 7205759403792800 (by norm_num) he ?_ ?_).trans (by norm_num)
  · rw [Int.floor_eq_iff]; constructor <;> norm_num
  · norm_num

theorem nearestF64_twenty : nearestF64 (20 : ℚ) = 20 := by
  have he : exp2Floor (20 : ℚ) = 4 := by
    refine (exp2Floor_pos_eval _ 4 (by norm_num) ?_).trans (by norm_num)
    rw [show ⌊(20 : ℚ)⌋ = 20 by rw [Int.floor_eq_iff]; constructor <;> norm_num]
    simp [Nat.log2]
  unfold nearestF64
  rw [if_neg (by norm_num), if_neg (by norm_num)]
  refine (nearestF64Pos_eval _ 4 5629499534213120 (by norm_num) he ?_ ?_).trans (by norm_num)
  · rw [Int.floor_eq_iff]; constructor <;> norm_num
  · norm_num

theorem rmsThreshold_twenty : rmsThreshold 20 = 2 := by
  have hq : nearestF64 (20 : ℚ) * oneMinusPercentileF64 = 4503599627370500 / 2 ^ 52 := by
    rw [nearestF64_twenty, oneMinusPercentileF64_eval]; norm_num
  have he : exp2Floor (4503599627370500 / 2 ^ 52 : ℚ) = 0 := by
    refine (exp2Floor_pos_eval _ 0 (by norm_num) ?_).trans (by norm_num)
    rw [show ⌊(4503599627370500 / 2 ^ 52 : ℚ)⌋ = 1 by
      rw [Int.floor_eq_iff]; constructor <;> norm_num]
    simp [Nat.log2]
  have hnn : nearestF64 (4503599627370500 / 2 ^ 52 : ℚ) = 4503599627370500 / 2 ^ 52 := by
    unfold nearestF64
    rw [if_neg (by norm_num), if_neg (by norm_num)]
    refine (nearestF64Pos_eval _ 0 4503599627370500 (by norm_num) he ?_ ?_).trans (by norm_num)
    · rw [Int.floor_eq_iff]; constructor <;> norm_num
    · norm_num
  unfold rmsThreshold
  rw [show ((20 : Nat) : ℚ) = 20 by norm_num, hq, hnn]
  rw [show Int.ceil (4503599627370500 / 2 ^ 52 : ℚ) = 2 by
    rw [Int.ceil_eq_iff]; constructor <;> norm_num]
  rfl

theorem thresholdPerSpec_twenty : thresholdPerSpec 20 = 1 := by
  unfold thresholdPerSpec
  rw [show ((20 : Nat) : ℚ) * (5 / 100) = 1 by norm_num, Int.ceil_one]
  rfl

theorem loudnessScan_skip (hist : List Nat) (threshold : Nat) :
    ∀ i j acc, hist.length ≤ j → j ≤ i → acc < threshold →
      loudnessScan hist threshold i acc = loudnessScan hist threshold j acc := by
  intro i
  induction i with
  | zero =>
    intro j acc h1 h2 h3
    interval_cases j
    rfl
  | succ i ih =>
    intro j acc h1 h2 h3
    by_cases hj : j = i + 1
    · subst hj; rfl
    · have hji : j ≤ i := by omega
      rw [loudnessScan]
      rw [List.getD_eq_default _ _ (by omega : hist.length ≤ i)]
      rw [if_neg (by omega)]
      rw [Nat.add_zero]
      exact ih j acc h1 hji h3

theorem tailCount_succ {hist : List Nat} (hlen : hist.length ≤ 12000) {i : Nat}
    (_hi : i < 12000) :
    tailCount hist i = hist.getD i 0 + tailCount hist (i + 1) := by
  unfold tailCount
  rw [List.take_of_length_le hlen]
  by_cases h : i < hist.length
  · rw [List.drop_eq_getElem_cons h, List.sum_cons, List.getD_eq_getElem _ _ h]
  · rw [List.drop_eq_nil_of_le (by omega), List.drop_eq_nil_of_le (by omega),
      List.getD_eq_default _ _ (by omega)]
    rfl

theorem loudnessScan_spec (hist : List Nat) (T : Nat) (hlen : hist.length ≤ 12000) :
    ∀ i acc, i ≤ 12000 → acc = tailCount hist i →
      (∀ j, i ≤ j → j < 12000 → tailCount hist j < T) →
      T ≤ tailCount hist 0 →
      ∃ win, win < i ∧ T ≤ tailCount hist win
        ∧ (∀ j, win < j → j < 12000 → tailCount hist j < T)
        ∧ loudnessScan hist T i acc = ((win : ℚ) - 7000) / 100 := by
  intro i
  induction i with
  | zero =>
    intro acc _ hacc hnone hreach
    exact absurd (hnone 0 (Nat.le_refl 0) (by norm_num)) (by omega)
  | succ i ih =>
    intro acc _hi hacc hnone hreach
    have hstep : tailCount hist i = hist.getD i 0 + tailCount hist (i + 1) :=
      tailCount_succ hlen (by omega)
    rw [loudnessScan]
    by_cases hc : acc + hist.getD i 0 ≥ T
    · rw [if_pos hc]
      refine ⟨i, Nat.lt_succ_self i, by omega, ?_, rfl⟩
      intro j hj1 hj2
      exact hnone j (by omega) hj2
    · rw [if_neg hc]
      have hall : ∀ j, i ≤ j → j < 12000 → tailCount hist j < T := by
        intro j hj1 hj2
        rcases Nat.eq_or_lt_of_le hj1 with rfl | hlt
        · omega
        · exact hnone j (by omega) hj2
      obtain ⟨win, hw1, hw2, hw3, hw4⟩ :=
        ih (acc + hist.getD i 0) (by omega) (by omega) hall hreach
      exact ⟨win, by omega, hw2, hw3, hw4⟩

/-- C8 counterexample: the histogram `[19, 1]` (total 20).  The spec
threshold is `ceil(20 × 0.05) = 1`, reached already in bucket 1, giving
loudness `-69.99` dB; the code computes `ceil(20.0 × (1.0 - 0.95)) = 2`
because `1.0 - 0.95` rounds to `0.050000000000000044` in `f64`, so the
scan only stops at bucket 0 and reports `-70` dB. -/
theorem claim_C8_counterexample :
    getLoudness [19, 1] = -70 ∧ loudnessPerSpec [19, 1] = -6999 / 100 := by
  have hsum : ([19, 1] : List Nat).sum = 20 := by decide
  constructor
  · unfold getLoudness
    rw [hsum, if_neg (by norm_num), rmsThreshold_twenty]
    rw [loudnessScan_skip [19, 1] 2 12000 2 0 (by norm_num) (by norm_num) (by norm_num)]
    norm_num [loudnessScan]
  · unfold loudnessPerSpec
    rw [hsum, if_neg (by norm_num), thresholdPerSpec_twenty]
    rw [loudnessScan_skip [19, 1] 1 12000 2 0 (by norm_num) (by norm_num) (by norm_num)]
    norm_num [loudnessScan]

/-- C8 (amended): for every histogram (at most 12000 buckets) with a
positive total window count whose count tail ever reaches the threshold,
the reported loudness is obtained by summing bucket counts from the
highest index downward until the cumulative count reaches the threshold
`ceil_f64(total × (1.0 - 0.95))` — computed in `f64` arithmetic, where
`1.0 - 0.95 = 0.050000000000000044 ≠ 0.05` — and equals
`(winning index − 7000)/100` dB; the track gain is `64.82` minus that
loudness.  The spec's exact-arithmetic threshold `ceil(total × 0.05)`
differs (see the counterexample). -/
theorem claim_C8_amended (hist : List Nat) (hlen : hist.length ≤ 12000)
    (hpos : hist.sum ≠ 0) (hreach : rmsThreshold hist.sum ≤ tailCount hist 0) :
    ∃ win, win < 12000 ∧ rmsThreshold hist.sum ≤ tailCount hist win
      ∧ (∀ j, win < j → j < 12000 → tailCount hist j < rmsThreshold hist.sum)
      ∧ getLoudness hist = ((win : ℚ) - 7000) / 100
      ∧ trackGainDb hist = 6482 / 100 - ((win : ℚ) - 7000) / 100 := by
  have h0 : (0 : Nat) = tailCount hist 12000 := by
    unfold tailCount
    rw [List.drop_eq_nil_of_le (by rw [List.length_take]; omega)]
    rfl
  obtain ⟨win, hw1, hw2, hw3, hw4⟩ := loudnessScan_spec hist (rmsThreshold hist.sum) hlen
    12000 0 (Nat.le_refl _) h0 (fun j hj1 hj2 => absurd hj1 (by omega)) hreach
  refine ⟨win, hw1, hw2, hw3, ?_, ?_⟩
  · unfold getLoudness
    rw [if_neg hpos]
    exact hw4
  · unfold trackGainDb getLoudness
    rw [if_neg hpos, hw4]

/-- C8 witness: on the histogram `[19, 1]` the winning bucket exists and
satisfies the amended characterization (it is bucket 0, as the
counterexample computes). -/
theorem claim_C8_witness :
    ∃ win, win < 12000 ∧ rmsThreshold ([19, 1] : List Nat).sum ≤ tailCount [19, 1] win
      ∧ (∀ j, win < j → j < 12000 → tailCount [19, 1] j < rmsThreshold ([19, 1] : List Nat).sum)
      ∧ getLoudness [19, 1] = ((win : ℚ) - 7000) / 100
      ∧ trackGainDb [19, 1] = 6482 / 100 - ((win : ℚ) - 7000) / 100 :=
  claim_C8_amended [19, 1] (by norm_num) (by decide)
    (by rw [show ([19, 1] : List Nat).sum = 20 from rfl, rmsThreshold_twenty]; decide)


/-!
### Histogram window bucketing (C9)
-/

/-- C9 counterexample: the code truncates `val as i32` toward zero instead
of rounding (`val = -0.6` lands in bucket 7000, the spec index is 6999),
and an out-of-range window is dropped, not clamped (`val = -30000` leaves
the histogram untouched, the spec clamps to bucket 0). -/
theorem claim_C9_counterexample :
    finishWindowHist (List.replicate 7001 0) (-(3 / 5))
        = (List.replicate 7001 0).set 7000 1
    ∧ histIndexPerSpec (-(3 / 5)) = 6999
    ∧ finishWindowHist [5] (-30000) = [5]
    ∧ histIndexPerSpec (-30000) = 0 := by
  have h1 : i32SatOfRat (-(3 / 5)) = 0 := by
    unfold i32SatOfRat ratTrunc
    rw [if_neg (by norm_num)]
    rw [show ⌈(-(3 / 5) : ℚ)⌉ = 0 by rw [Int.ceil_eq_iff]; constructor <;> norm_num]
    decide
  have h3 : i32SatOfRat (-30000 : ℚ) = -30000 := by
    unfold i32SatOfRat ratTrunc
    rw [if_neg (by norm_num)]
    rw [show ⌈(-30000 : ℚ)⌉ = -30000 by rw [Int.ceil_eq_iff]; constructor <;> norm_num]
    decide
  refine ⟨?_, ?_, ?_, ?_⟩
  · unfold finishWindowHist
    rw [h1]
    show (if ((wrap32 ((0 : Int) + 7000)).emod (2 ^ 64)).toNat < 12000 then
        (List.replicate 7001 0).set ((wrap32 ((0 : Int) + 7000)).emod (2 ^ 64)).toNat
          ((List.replicate 7001 0).getD (((wrap32 ((0 : Int) + 7000)).emod (2 ^ 64)).toNat) 0 + 1)
      else List.replicate 7001 0) = (List.replicate 7001 0).set 7000 1
    rw [show ((wrap32 ((0 : Int) + 7000)).emod (2 ^ 64)).toNat = 7000 from by decide]
    rw [if_pos (by norm_num : (7000 : Nat) < 12000)]
    rw [show (List.replicate 7001 (0 : Nat)).getD 7000 0 = 0 from by
      rw [List.getD_eq_getElem _ _ (by rw [List.length_replicate]; omega)]
      exact List.getElem_replicate _ (by rw [List.length_replicate]; omega)]
  · unfold histIndexPerSpec
    rw [show round (-(3 / 5) : ℚ) = -1 by
      rw [round_eq]
      rw [show ⌊(-(3 / 5) : ℚ) + 1 / 2⌋ = -1 by rw [Int.floor_eq_iff]; constructor <;> norm_num]]
    decide
  · unfold finishWindowHist
    rw [h3]
    decide
  · unfold histIndexPerSpec
    rw [show round (-30000 : ℚ) = -30000 by
      rw [round_eq]
      rw [show ⌊(-30000 : ℚ) + 1 / 2⌋ = -30000 by
        rw [Int.floor_eq_iff]; constructor <;> norm_num]]
    decide

/-- C9 (amended): at window completion the value `val = 100 × 10 ×
log10(mean_square + 1e-37)` is cast to `i32` by truncation toward zero
(saturating), 7000 is added with wrapping `i32` arithmetic, and the
resulting index increments its bucket only when it lies in `[0, 11999]`;
a window whose index falls outside that range is dropped — not clamped —
so not every window is counted, and the index uses truncation rather than
the spec's `round` (see the counterexample). -/
theorem claim_C9_amended (hist : List Nat) (val : ℚ) :
    (0 ≤ wrap32 (i32SatOfRat val + 7000) → wrap32 (i32SatOfRat val + 7000) < 12000 →
      finishWindowHist hist val
        = hist.set (wrap32 (i32SatOfRat val + 7000)).toNat
            (hist.getD (wrap32 (i32SatOfRat val + 7000)).toNat 0 + 1))
    ∧ (wrap32 (i32SatOfRat val + 7000) < 0 ∨ 12000 ≤ wrap32 (i32SatOfRat val + 7000) →
      finishWindowHist hist val = hist) := by
  have hb : -(2147483648 : Int) ≤ wrap32 (i32SatOfRat val + 7000)
      ∧ wrap32 (i32SatOfRat val + 7000) < 2147483648 := by
    unfold wrap32
    constructor
    · show -(2147483648 : Int)
          ≤ (i32SatOfRat val + 7000 + 2147483648) % 4294967296 - 2147483648
      omega
    · show (i32SatOfRat val + 7000 + 2147483648) % 4294967296 - 2147483648 < 2147483648
      omega
  have hpos' : ∀ x : Int, 0 ≤ x → x < 2147483648 → x.emod (2 ^ 64) = x := by
    intro x hx1 hx2
    show x % 18446744073709551616 = x
    omega
  have hneg' : ∀ x : Int, -2147483648 ≤ x → x < 0 →
      x.emod (2 ^ 64) = x + 18446744073709551616 := by
    intro x hx1 hx2
    show x % 18446744073709551616 = x + 18446744073709551616
    omega
  constructor
  · intro h0 h12
    unfold finishWindowHist
    simp only []
    rw [hpos' _ h0 hb.2]
    rw [if_pos (show (wrap32 (i32SatOfRat val + 7000)).toNat < 12000 by omega)]
  · intro h
    unfold finishWindowHist
    simp only []
    rcases h with hneg | hge
    · rw [hneg' _ hb.1 hneg]
      rw [if_neg (show ¬ (wrap32 (i32SatOfRat val + 7000)
          + 18446744073709551616).toNat < 12000 by omega)]
    · rw [hpos' _ (by omega) hb.2]
      rw [if_neg (show ¬ (wrap32 (i32SatOfRat val + 7000)).toNat < 12000 by omega)]

/-- C9 witness: `val = -6999.5` truncates to `-6999`, so bucket 1 of
`[3, 4]` is incremented (rounding would give bucket 0); `val = -30001`
yields index `-23001`, so the window is dropped and the histogram is
unchanged. -/
theorem claim_C9_witness :
    finishWindowHist [3, 4] (-6999 - 1 / 2) = [3, 4].set 1 5
    ∧ finishWindowHist [3, 4] (-30001) = [3, 4] := by
  have h1 : i32SatOfRat (-6999 - 1 / 2) = -6999 := by
    unfold i32SatOfRat ratTrunc
    rw [if_neg (by norm_num)]
    rw [show ⌈(-6999 - 1 / 2 : ℚ)⌉ = -6999 by rw [Int.ceil_eq_iff]; constructor <;> norm_num]
    decide
  have h2 : i32SatOfRat (-30001 : ℚ) = -30001 := by
    unfold i32SatOfRat ratTrunc
    rw [if_neg (by norm_num)]
    rw [show ⌈(-30001 : ℚ)⌉ = -30001 by rw [Int.ceil_eq_iff]; constructor <;> norm_num]
    decide
  constructor
  · have h := (claim_C9_amended [3, 4] (-6999 - 1 / 2)).1
    rw [h1] at h
    exact (h (by decide) (by decide)).trans (by decide)
  · have h := (claim_C9_amended [3, 4] (-30001 : ℚ)).2
    rw [h2] at h
    exact h (Or.inl (by decide))


/-!
### MP4 chunk-offset fixup (C7)
-/

theorem length_writeU32BE (data : List Nat) (i v : Nat) :
    (writeU32BE data i v).length = data.length := by
  simp [writeU32BE]

theorem byteAt_writeU32BE_outside {i j : Nat} (h : j < i ∨ i + 4 ≤ j)
    (data : List Nat) (v : Nat) :
    byteAt (writeU32BE data i v) j = byteAt data j := by
  unfold writeU32BE
  rw [byteAt_set_ne (by omega), byteAt_set_ne (by omega), byteAt_set_ne (by omega),
    byteAt_set_ne (by omega)]

theorem readU32BE_writeU32BE (data : List Nat) {i : Nat} (hlen : i + 4 ≤ data.length)
    {v : Nat} (hv : v < 2 ^ 32) :
    readU32BE (writeU32BE data i v) i = v := by
  have b0 : byteAt (writeU32BE data i v) i = v / 2 ^ 24 % 256 := by
    unfold writeU32BE
    rw [byteAt_set_ne (by omega), byteAt_set_ne (by omega), byteAt_set_ne (by omega)]
    exact byteAt_set_eq (by omega) _
  have b1 : byteAt (writeU32BE data i v) (i + 1) = v / 2 ^ 16 % 256 := by
    unfold writeU32BE
    rw [byteAt_set_ne (by omega), byteAt_set_ne (by omega)]
    exact byteAt_set_eq (by simp only [List.length_set]; omega) _
  have b2 : byteAt (writeU32BE data i v) (i + 2) = v / 2 ^ 8 % 256 := by
    unfold writeU32BE
    rw [byteAt_set_ne (by omega)]
    exact byteAt_set_eq (by simp only [List.length_set]; omega) _
  have b3 : byteAt (writeU32BE data i v) (i + 3) = v % 256 := by
    unfold writeU32BE
    exact byteAt_set_eq (by simp only [List.length_set]; omega) _
  unfold readU32BE
  rw [b0, b1, b2, b3]
  omega

theorem length_writeU64BE (data : List Nat) (i v : Nat) :
    (writeU64BE data i v).length = data.length := by
  simp [writeU64BE, length_writeU32BE]

theorem byteAt_writeU64BE_outside {i j : Nat} (h : j < i ∨ i + 8 ≤ j)
    (data : List Nat) (v : Nat) :
    byteAt (writeU64BE data i v) j = byteAt data j := by
  unfold writeU64BE
  rw [byteAt_writeU32BE_outside (by omega), byteAt_writeU32BE_outside (by omega)]

theorem readU64BE_writeU64BE (data : List Nat) {i : Nat} (hlen : i + 8 ≤ data.length)
    {v : Nat} (hv : v < 2 ^ 64) :
    readU64BE (writeU64BE data i v) i = v := by
  have hlo : readU32BE (writeU64BE data i v) (i + 4) = v % 2 ^ 32 := by
    unfold writeU64BE
    exact readU32BE_writeU32BE _ (by rw [length_writeU32BE]; omega) (by omega)
  have hhi : readU32BE (writeU64BE data i v) i = v / 2 ^ 32 % 2 ^ 32 := by
    have houter : ∀ k, k < 4 → byteAt (writeU64BE data i v) (i + k)
        = byteAt (writeU32BE data i (v / 2 ^ 32 % 2 ^ 32)) (i + k) := by
      intro k hk
      unfold writeU64BE
      exact byteAt_writeU32BE_outside (by omega) _ _
    have : readU32BE (writeU64BE data i v) i
        = readU32BE (writeU32BE data i (v / 2 ^ 32 % 2 ^ 32)) i := by
      unfold readU32BE
      rw [show i + 1 = i + 1 from rfl]
      rw [show byteAt (writeU64BE data i v) i
          = byteAt (writeU32BE data i (v / 2 ^ 32 % 2 ^ 32)) i from by
        have := houter 0 (by omega); simpa using this]
      rw [houter 1 (by omega), houter 2 (by omega), houter 3 (by omega)]
    rw [this]
    exact readU32BE_writeU32BE _ (by omega) (by omega)
  unfold readU64BE
  rw [hlo, hhi]
  omega

theorem emod_toNat_lt (z : Int) {m : Nat} (hm : 0 < m) : (z.emod (m : Int)).toNat < m := by
  have h1 : 0 ≤ z.emod (m : Int) := Int.emod_nonneg z (by omega)
  have h2 : z.emod (m : Int) < (m : Int) := Int.emod_lt_of_pos z (by exact_mod_cast hm)
  omega


theorem length_updEntries32 (diff : Int) :
    ∀ (n : Nat) (data : List Nat) (p : Nat),
      (updEntries32 diff n data p).length = data.length := by
  intro n
  induction n with
  | zero => intro data p; rfl
  | succ n ih =>
    intro data p
    simp only [updEntries32]
    split_ifs
    · rfl
    · rw [ih, length_writeU32BE]

theorem byteAt_updEntries32_outside (diff : Int) :
    ∀ (n : Nat) (data : List Nat) (p j : Nat), j < p ∨ p + 4 * n ≤ j →
      byteAt (updEntries32 diff n data p) j = byteAt data j := by
  intro n
  induction n with
  | zero => intro data p j _; rfl
  | succ n ih =>
    intro data p j hj
    simp only [updEntries32]
    split_ifs
    · rfl
    · rw [ih _ _ _ (by omega), byteAt_writeU32BE_outside (by omega)]

theorem length_updEntries64 (diff : Int) :
    ∀ (n : Nat) (data : List Nat) (p : Nat),
      (updEntries64 diff n data p).length = data.length := by
  intro n
  induction n with
  | zero => intro data p; rfl
  | succ n ih =>
    intro data p
    simp only [updEntries64]
    split_ifs
    · rfl
    · rw [ih, length_writeU64BE]

theorem byteAt_updEntries64_outside (diff : Int) :
    ∀ (n : Nat) (data : List Nat) (p j : Nat), j < p ∨ p + 8 * n ≤ j →
      byteAt (updEntries64 diff n data p) j = byteAt data j := by
  intro n
  induction n with
  | zero => intro data p j _; rfl
  | succ n ih =>
    intro data p j hj
    simp only [updEntries64]
    split_ifs
    · rfl
    · rw [ih _ _ _ (by omega), byteAt_writeU64BE_outside (by omega)]

theorem collectEntries32_congr :
    ∀ (n : Nat) (d1 d2 : List Nat) (p : Nat), d1.length = d2.length →
      (∀ j, p ≤ j → j < p + 4 * n → byteAt d1 j = byteAt d2 j) →
      collectEntries32 d1 n p = collectEntries32 d2 n p := by
  intro n
  induction n with
  | zero => intro d1 d2 p _ _; rfl
  | succ n ih =>
    intro d1 d2 p hlen hb
    simp only [collectEntries32]
    rw [hlen]
    split_ifs
    · rfl
    · have hr : readU32BE d1 p = readU32BE d2 p := by
        unfold readU32BE
        rw [hb p (by omega) (by omega), hb (p + 1) (by omega) (by omega),
          hb (p + 2) (by omega) (by omega), hb (p + 3) (by omega) (by omega)]
      rw [hr, ih d1 d2 (p + 4) hlen (fun j h1 h2 => hb j (by omega) (by omega))]

theorem collectEntries64_congr :
    ∀ (n : Nat) (d1 d2 : List Nat) (p : Nat), d1.length = d2.length →
      (∀ j, p ≤ j → j < p + 8 * n → byteAt d1 j = byteAt d2 j) →
      collectEntries64 d1 n p = collectEntries64 d2 n p := by
  intro n
  induction n with
  | zero => intro d1 d2 p _ _; rfl
  | succ n ih =>
    intro d1 d2 p hlen hb
    simp only [collectEntries64]
    rw [hlen]
    split_ifs
    · rfl
    · have hr : readU64BE d1 p = readU64BE d2 p := by
        unfold readU64BE readU32BE
        rw [hb p (by omega) (by omega), hb (p + 1) (by omega) (by omega),
          hb (p + 2) (by omega) (by omega), hb (p + 3) (by omega) (by omega),
          hb (p + 4) (by omega) (by omega), hb (p + 4 + 1) (by omega) (by omega),
          hb (p + 4 + 2) (by omega) (by omega), hb (p + 4 + 3) (by omega) (by omega)]
      rw [hr, ih d1 d2 (p + 8) hlen (fun j h1 h2 => hb j (by omega) (by omega))]

theorem readU32BE_eq_of {d1 d2 : List Nat} (i : Nat)
    (h : ∀ k, k < 4 → byteAt d1 (i + k) = byteAt d2 (i + k)) :
    readU32BE d1 i = readU32BE d2 i := by
  unfold readU32BE
  have h0 := h 0 (by omega)
  rw [show i + 0 = i from rfl] at h0
  rw [h0, h 1 (by omega), h 2 (by omega), h 3 (by omega)]

theorem readU64BE_eq_of {d1 d2 : List Nat} (i : Nat)
    (h : ∀ k, k < 8 → byteAt d1 (i + k) = byteAt d2 (i + k)) :
    readU64BE d1 i = readU64BE d2 i := by
  unfold readU64BE
  have e1 : readU32BE d1 i = readU32BE d2 i := readU32BE_eq_of i (fun k hk => h k (by omega))
  have e2 : readU32BE d1 (i + 4) = readU32BE d2 (i + 4) := by
    apply readU32BE_eq_of
    intro k hk
    have hh := h (4 + k) (by omega)
    rw [show i + (4 + k) = i + 4 + k from by omega] at hh
    exact hh
  rw [e1, e2]

theorem collectEntries32_updEntries32 (diff : Int) :
    ∀ (n : Nat) (data : List Nat) (p : Nat),
      collectEntries32 (updEntries32 diff n data p) n p
        = (collectEntries32 data n p).map (shiftEntry diff) := by
  intro n
  induction n with
  | zero => intro data p; rfl
  | succ n ih =>
    intro data p
    simp only [updEntries32, collectEntries32]
    by_cases hg : p + 4 > data.length
    · rw [if_pos hg, if_pos hg]
      rfl
    · rw [if_neg hg]
      rw [length_updEntries32, length_writeU32BE]
      rw [if_neg hg]
      have hv : (((readU32BE data p : Int) + diff).emod (2 ^ 32)).toNat < 2 ^ 32 := by
        have h1 : 0 ≤ ((readU32BE data p : Int) + diff).emod (2 ^ 32) :=
          Int.emod_nonneg _ (by norm_num)
        have h2 : ((readU32BE data p : Int) + diff).emod (2 ^ 32) < 2 ^ 32 :=
          Int.emod_lt_of_pos _ (by norm_num)
        omega
      have hhead : readU32BE (updEntries32 diff n
            (writeU32BE data p ((((readU32BE data p : Int) + diff).emod (2 ^ 32)).toNat))
            (p + 4)) p
          = (((readU32BE data p : Int) + diff).emod (2 ^ 32)).toNat :=
        (readU32BE_eq_of p (fun k hk =>
            byteAt_updEntries32_outside diff n _ (p + 4) (p + k) (by omega))).trans
          (readU32BE_writeU32BE _ (by omega) hv)
      have htail : collectEntries32 (updEntries32 diff n
            (writeU32BE data p ((((readU32BE data p : Int) + diff).emod (2 ^ 32)).toNat))
            (p + 4)) n (p + 4)
          = (collectEntries32 data n (p + 4)).map (shiftEntry diff) := by
        rw [ih]
        rw [collectEntries32_congr n (writeU32BE data p
              ((((readU32BE data p : Int) + diff).emod (2 ^ 32)).toNat)) data (p + 4)
            (length_writeU32BE _ _ _)
            (fun j h1 h2 => byteAt_writeU32BE_outside (by omega) _ _)]
      rw [hhead, htail, if_neg hg]
      rfl

theorem collectEntries64_updEntries64 (diff : Int) :
    ∀ (n : Nat) (data : List Nat) (p : Nat),
      collectEntries64 (updEntries64 diff n data p) n p
        = (collectEntries64 data n p).map (shiftEntry diff) := by
  intro n
  induction n with
  | zero => intro data p; rfl
  | succ n ih =>
    intro data p
    simp only [updEntries64, collectEntries64]
    by_cases hg : p + 8 > data.length
    · rw [if_pos hg, if_pos hg]
      rfl
    · rw [if_neg hg]
      rw [length_updEntries64, length_writeU64BE]
      rw [if_neg hg]
      have hv : (((readU64BE data p : Int) + diff).emod (2 ^ 64)).toNat < 2 ^ 64 := by
        have h1 : 0 ≤ ((readU64BE data p : Int) + diff).emod (2 ^ 64) :=
          Int.emod_nonneg _ (by norm_num)
        have h2 : ((readU64BE data p : Int) + diff).emod (2 ^ 64) < 2 ^ 64 :=
          Int.emod_lt_of_pos _ (by norm_num)
        omega
      have hhead : readU64BE (updEntries64 diff n
            (writeU64BE data p ((((readU64BE data p : Int) + diff).emod (2 ^ 64)).toNat))
            (p + 8)) p
          = (((readU64BE data p : Int) + diff).emod (2 ^ 64)).toNat :=
        (readU64BE_eq_of p (fun k hk =>
            byteAt_updEntries64_outside diff n _ (p + 8) (p + k) (by omega))).trans
          (readU64BE_writeU64BE _ (by omega) hv)
      have htail : collectEntries64 (updEntries64 diff n
            (writeU64BE data p ((((readU64BE data p : Int) + diff).emod (2 ^ 64)).toNat))
            (p + 8)) n (p + 8)
          = (collectEntries64 data n (p + 8)).map (shiftEntry diff) := by
        rw [ih]
        rw [collectEntries64_congr n (writeU64BE data p
              ((((readU64BE data p : Int) + diff).emod (2 ^ 64)).toNat)) data (p + 8)
            (length_writeU64BE _ _ _)
            (fun j h1 h2 => byteAt_writeU64BE_outside (by omega) _ _)]
      rw [hhead, htail, if_neg hg]
      rfl


theorem wfBoxes_congr :
    ∀ (fuel : Nat) (d1 d2 : List Nat) (pos endp : Nat), d1.length = d2.length →
      (∀ j, pos ≤ j → j < endp → byteAt d1 j = byteAt d2 j) →
      wfBoxes fuel d1 pos endp = wfBoxes fuel d2 pos endp := by
  intro fuel
  induction fuel with
  | zero => intro d1 d2 pos endp _ _; rfl
  | succ fuel ih =>
    intro d1 d2 pos endp hlen hb
    simp only [wfBoxes]
    by_cases hg : pos + 8 ≤ endp
    · rw [if_pos hg, if_pos hg]
      have hsize : readU32BE d1 pos = readU32BE d2 pos :=
        readU32BE_eq_of pos (fun k hk => hb (pos + k) (by omega) (by omega))
      have htyp : readU32BE d1 (pos + 4) = readU32BE d2 (pos + 4) :=
        readU32BE_eq_of (pos + 4) (fun k hk => hb (pos + 4 + k) (by omega) (by omega))
      rw [hsize, htyp]
      by_cases hz : readU32BE d2 pos = 0 ∨ pos + readU32BE d2 pos > endp
      · rw [if_pos hz, if_pos hz]
      · rw [if_neg hz, if_neg hz]
        push_neg at hz
        have hrest : wfBoxes fuel d1 (pos + readU32BE d2 pos) endp
            = wfBoxes fuel d2 (pos + readU32BE d2 pos) endp :=
          ih d1 d2 _ endp hlen (fun j h1 h2 => hb j (by omega) h2)
        rw [hrest]
        by_cases ht1 : readU32BE d2 (pos + 4) = boxSTCO
        · rw [if_pos ht1, if_pos ht1, hlen]
          by_cases hs16 : 16 ≤ readU32BE d2 pos
          · have hcnt : readU32BE d1 (pos + 12) = readU32BE d2 (pos + 12) :=
              readU32BE_eq_of (pos + 12) (fun k hk => hb (pos + 12 + k) (by omega) (by omega))
            rw [hcnt]
          · have hiff : (pos + 16 ≤ d2.length → 16 + 4 * readU32BE d1 (pos + 12) ≤ readU32BE d2 pos)
                ↔ (pos + 16 ≤ d2.length → 16 + 4 * readU32BE d2 (pos + 12) ≤ readU32BE d2 pos) := by
              constructor <;> intro h hA <;> (have hh := h hA; omega)
            rw [decide_eq_decide.mpr hiff]
        · rw [if_neg ht1, if_neg ht1]
          by_cases ht2 : readU32BE d2 (pos + 4) = boxCO64
          · rw [if_pos ht2, if_pos ht2, hlen]
            by_cases hs16 : 16 ≤ readU32BE d2 pos
            · have hcnt : readU32BE d1 (pos + 12) = readU32BE d2 (pos + 12) :=
                readU32BE_eq_of (pos + 12) (fun k hk => hb (pos + 12 + k) (by omega) (by omega))
              rw [hcnt]
            · have hiff : (pos + 16 ≤ d2.length → 16 + 8 * readU32BE d1 (pos + 12) ≤ readU32BE d2 pos)
                  ↔ (pos + 16 ≤ d2.length → 16 + 8 * readU32BE d2 (pos + 12) ≤ readU32BE d2 pos) := by
                constructor <;> intro h hA <;> (have hh := h hA; omega)
              rw [decide_eq_decide.mpr hiff]
          · rw [if_neg ht2, if_neg ht2]
            by_cases ht3 : readU32BE d2 (pos + 4) = boxTRAK ∨ readU32BE d2 (pos + 4) = boxMDIA
                ∨ readU32BE d2 (pos + 4) = boxMINF ∨ readU32BE d2 (pos + 4) = boxSTBL
                ∨ readU32BE d2 (pos + 4) = boxMOOV ∨ readU32BE d2 (pos + 4) = boxUDTA
            · rw [if_pos ht3, if_pos ht3]
              rw [ih d1 d2 (pos + 8) (pos + readU32BE d2 pos) hlen
                (fun j h1 h2 => hb j (by omega) (by omega))]
            · rw [if_neg ht3, if_neg ht3]
    · rw [if_neg hg, if_neg hg]

theorem collectRec_congr :
    ∀ (fuel : Nat) (d1 d2 : List Nat) (pos endp : Nat), d1.length = d2.length →
      (∀ j, pos ≤ j → j < endp → byteAt d1 j = byteAt d2 j) →
      wfBoxes fuel d2 pos endp = true →
      collectRec fuel d1 pos endp = collectRec fuel d2 pos endp := by
  intro fuel
  induction fuel with
  | zero => intro d1 d2 pos endp _ _ _; rfl
  | succ fuel ih =>
    intro d1 d2 pos endp hlen hb hwf
    simp only [wfBoxes] at hwf
    simp only [collectRec]
    by_cases hg : pos + 8 ≤ endp
    · rw [if_pos hg] at hwf
      rw [if_pos hg, if_pos hg]
      have hsize : readU32BE d1 pos = readU32BE d2 pos :=
        readU32BE_eq_of pos (fun k hk => hb (pos + k) (by omega) (by omega))
      have htyp : readU32BE d1 (pos + 4) = readU32BE d2 (pos + 4) :=
        readU32BE_eq_of (pos + 4) (fun k hk => hb (pos + 4 + k) (by omega) (by omega))
      rw [hsize, htyp]
      by_cases hz : readU32BE d2 pos = 0 ∨ pos + readU32BE d2 pos > endp
      · rw [if_pos hz, if_pos hz]
      · rw [if_neg hz] at hwf
        rw [if_neg hz, if_neg hz]
        rw [Bool.and_eq_true] at hwf
        obtain ⟨hwf1, hwf2⟩ := hwf
        push_neg at hz
        have hrest : collectRec fuel d1 (pos + readU32BE d2 pos) endp
            = collectRec fuel d2 (pos + readU32BE d2 pos) endp :=
          ih d1 d2 _ endp hlen (fun j h1 h2 => hb j (by omega) h2) hwf2
        rw [hrest]
        by_cases ht1 : readU32BE d2 (pos + 4) = boxSTCO
        · rw [if_pos ht1, if_pos ht1, hlen]
          rw [if_pos ht1] at hwf1
          by_cases h16 : pos + 16 ≤ d2.length
          · rw [if_pos h16, if_pos h16]
            have hbound : 16 + 4 * readU32BE d2 (pos + 12) ≤ readU32BE d2 pos :=
              of_decide_eq_true hwf1 h16
            have hcnt : readU32BE d1 (pos + 12) = readU32BE d2 (pos + 12) :=
              readU32BE_eq_of (pos + 12) (fun k hk => hb (pos + 12 + k) (by omega) (by omega))
            rw [hcnt]
            rw [collectEntries32_congr _ d1 d2 (pos + 16) hlen
              (fun j h1 h2 => hb j (by omega) (by omega))]
          · rw [if_neg h16, if_neg h16]
        · rw [if_neg ht1, if_neg ht1]
          rw [if_neg ht1] at hwf1
          by_cases ht2 : readU32BE d2 (pos + 4) = boxCO64
          · rw [if_pos ht2, if_pos ht2, hlen]
            rw [if_pos ht2] at hwf1
            by_cases h16 : pos + 16 ≤ d2.length
            · rw [if_pos h16, if_pos h16]
              have hbound : 16 + 8 * readU32BE d2 (pos + 12) ≤ readU32BE d2 pos :=
                of_decide_eq_true hwf1 h16
              have hcnt : readU32BE d1 (pos + 12) = readU32BE d2 (pos + 12) :=
                readU32BE_eq_of (pos + 12) (fun k hk => hb (pos + 12 + k) (by omega) (by omega))
              rw [hcnt]
              rw [collectEntries64_congr _ d1 d2 (pos + 16) hlen
                (fun j h1 h2 => hb j (by omega) (by omega))]
            · rw [if_neg h16, if_neg h16]
          · rw [if_neg ht2, if_neg ht2]
            rw [if_neg ht2] at hwf1
            by_cases ht3 : readU32BE d2 (pos + 4) = boxTRAK ∨ readU32BE d2 (pos + 4) = boxMDIA
                ∨ readU32BE d2 (pos + 4) = boxMINF ∨ readU32BE d2 (pos + 4) = boxSTBL
                ∨ readU32BE d2 (pos + 4) = boxMOOV ∨ readU32BE d2 (pos + 4) = boxUDTA
            · rw [if_pos ht3, if_pos ht3]
              rw [if_pos ht3] at hwf1
              rw [ih d1 d2 (pos + 8) (pos + readU32BE d2 pos) hlen
                (fun j h1 h2 => hb j (by omega) (by omega)) hwf1]
            · rw [if_neg ht3, if_neg ht3]
    · rw [if_neg hg, if_neg hg]


theorem updRec_step (diff : Int) (fuel : Nat) (data d1 : List Nat) (pos endp : Nat)
    (ih : ∀ (d : List Nat) (p e : Nat), wfBoxes fuel d p e = true → e ≤ d.length →
      (updRec diff fuel d p e).length = d.length
      ∧ (∀ j, j < p + 16 ∨ e ≤ j → byteAt (updRec diff fuel d p e) j = byteAt d j)
      ∧ wfBoxes fuel (updRec diff fuel d p e) p e = true
      ∧ collectRec fuel (updRec diff fuel d p e) p e
          = (collectRec fuel d p e).map (shiftEntry diff))
    (hz2 : pos + readU32BE data pos ≤ endp)
    (hend : endp ≤ data.length)
    (hd1len : d1.length = data.length)
    (hd1out : ∀ j, j < pos + 16 ∨ pos + readU32BE data pos ≤ j →
      byteAt d1 j = byteAt data j)
    (hwf2 : wfBoxes fuel data (pos + readU32BE data pos) endp = true) :
    (updRec diff fuel d1 (pos + readU32BE data pos) endp).length = data.length
    ∧ (∀ j, j < pos + 16 ∨ endp ≤ j →
        byteAt (updRec diff fuel d1 (pos + readU32BE data pos) endp) j = byteAt data j)
    ∧ wfBoxes fuel (updRec diff fuel d1 (pos + readU32BE data pos) endp)
        (pos + readU32BE data pos) endp = true
    ∧ collectRec fuel (updRec diff fuel d1 (pos + readU32BE data pos) endp)
        (pos + readU32BE data pos) endp
        = (collectRec fuel data (pos + readU32BE data pos) endp).map (shiftEntry diff)
    ∧ (∀ j, j < pos + readU32BE data pos + 16 →
        byteAt (updRec diff fuel d1 (pos + readU32BE data pos) endp) j = byteAt d1 j) := by
  have hwf2' : wfBoxes fuel d1 (pos + readU32BE data pos) endp = true := by
    rw [wfBoxes_congr fuel d1 data (pos + readU32BE data pos) endp hd1len
      (fun j h1 h2 => hd1out j (Or.inr h1))]
    exact hwf2
  obtain ⟨hFlen, hFout, hFwf, hFcol⟩ := ih d1 (pos + readU32BE data pos) endp hwf2'
    (by rw [hd1len]; exact hend)
  refine ⟨?_, ?_, hFwf, ?_, ?_⟩
  · rw [hFlen, hd1len]
  · intro j hj
    rcases hj with hj | hj
    · rw [hFout j (Or.inl (by omega)), hd1out j (Or.inl hj)]
    · rw [hFout j (Or.inr hj), hd1out j (Or.inr (by omega))]
  · rw [hFcol]
    rw [collectRec_congr fuel d1 data (pos + readU32BE data pos) endp hd1len
      (fun j h1 h2 => hd1out j (Or.inr h1)) hwf2]
  · intro j hj
    exact hFout j (Or.inl hj)

set_option maxHeartbeats 1600000 in
theorem updRec_spec (diff : Int) :
    ∀ (fuel : Nat) (data : List Nat) (pos endp : Nat),
      wfBoxes fuel data pos endp = true → endp ≤ data.length →
      (updRec diff fuel data pos endp).length = data.length
      ∧ (∀ j, j < pos + 16 ∨ endp ≤ j →
          byteAt (updRec diff fuel data pos endp) j = byteAt data j)
      ∧ wfBoxes fuel (updRec diff fuel data pos endp) pos endp = true
      ∧ collectRec fuel (updRec diff fuel data pos endp) pos endp
          = (collectRec fuel data pos endp).map (shiftEntry diff) := by
  intro fuel
  induction fuel with
  | zero =>
    intro data pos endp hwf _
    exact absurd hwf (by simp [wfBoxes])
  | succ fuel ih =>
    intro data pos endp hwf hend
    simp only [wfBoxes] at hwf
    by_cases hg : pos + 8 ≤ endp
    swap
    · have hupd : updRec diff (fuel + 1) data pos endp = data := by
        simp only [updRec]
        rw [if_neg hg]
      rw [hupd]
      refine ⟨rfl, fun j _ => rfl, ?_, ?_⟩
      · simp only [wfBoxes]
        rw [if_neg hg]
      · simp only [collectRec]
        rw [if_neg hg]
        rfl
    · rw [if_pos hg] at hwf
      by_cases hz : readU32BE data pos = 0 ∨ pos + readU32BE data pos > endp
      · have hupd : updRec diff (fuel + 1) data pos endp = data := by
          simp only [updRec]
          rw [if_pos hg, if_pos hz]
        rw [hupd]
        refine ⟨rfl, fun j _ => rfl, ?_, ?_⟩
        · simp only [wfBoxes]
          rw [if_pos hg, if_pos hz]
        · simp only [collectRec]
          rw [if_pos hg, if_pos hz]
          rfl
      · rw [if_neg hz] at hwf
        rw [Bool.and_eq_true] at hwf
        obtain ⟨hwf1, hwf2⟩ := hwf
        have hz1 : readU32BE data pos ≠ 0 := fun hc => hz (Or.inl hc)
        have hz2 : pos + readU32BE data pos ≤ endp := by
          by_contra hc
          exact hz (Or.inr (by omega))
        by_cases ht1 : readU32BE data (pos + 4) = boxSTCO
        · rw [if_pos ht1] at hwf1
          by_cases h16 : pos + 16 ≤ data.length
          · have hbound : 16 + 4 * readU32BE data (pos + 12) ≤ readU32BE data pos :=
              of_decide_eq_true hwf1 h16
            have hupd : updRec diff (fuel + 1) data pos endp
                = updRec diff fuel (updEntries32 diff (readU32BE data (pos + 12)) data (pos + 16)) (pos + readU32BE data pos) endp := by
              simp only [updRec]
              rw [if_pos hg, if_neg hz, if_pos ht1, if_pos h16]
            have hd1len : ((updEntries32 diff (readU32BE data (pos + 12)) data (pos + 16)) : List Nat).length = data.length :=
              length_updEntries32 _ _ _ _
            have hd1out : ∀ j, j < pos + 16 ∨ pos + readU32BE data pos ≤ j →
                byteAt (updEntries32 diff (readU32BE data (pos + 12)) data (pos + 16)) j = byteAt data j := by
              intro j hj
              exact byteAt_updEntries32_outside diff _ _ _ _ (by omega)
            obtain ⟨hSlen, hSout, hSwf, hScol, hSd1⟩ :=
              updRec_step diff fuel data _ pos endp ih hz2 hend hd1len hd1out hwf2
            rw [hupd]
            have hFr : ∀ k, k < 16 →
                byteAt (updRec diff fuel (updEntries32 diff (readU32BE data (pos + 12)) data (pos + 16)) (pos + readU32BE data pos) endp) (pos + k) = byteAt data (pos + k) := by
              intro k hk
              rw [hSd1 (pos + k) (by omega), hd1out (pos + k) (Or.inl (by omega))]
            have hsizeF : readU32BE (updRec diff fuel (updEntries32 diff (readU32BE data (pos + 12)) data (pos + 16)) (pos + readU32BE data pos) endp) pos = readU32BE data pos :=
              readU32BE_eq_of pos (fun k hk => hFr k (by omega))
            have htypF : readU32BE (updRec diff fuel (updEntries32 diff (readU32BE data (pos + 12)) data (pos + 16)) (pos + readU32BE data pos) endp) (pos + 4) = readU32BE data (pos + 4) :=
              readU32BE_eq_of (pos + 4) (fun k hk => by
                rw [show pos + 4 + k = pos + (4 + k) from by omega]
                exact hFr (4 + k) (by omega))
            have hcntF : readU32BE (updRec diff fuel (updEntries32 diff (readU32BE data (pos + 12)) data (pos + 16)) (pos + readU32BE data pos) endp) (pos + 12) = readU32BE data (pos + 12) :=
              readU32BE_eq_of (pos + 12) (fun k hk => by
                rw [show pos + 12 + k = pos + (12 + k) from by omega]
                exact hFr (12 + k) (by omega))
            refine ⟨hSlen, hSout, ?_, ?_⟩
            · simp only [wfBoxes]
              rw [if_pos hg, hsizeF, htypF]
              rw [if_neg hz]
              rw [Bool.and_eq_true]
              refine ⟨?_, hSwf⟩
              rw [if_pos ht1, hSlen, hcntF]
              rw [decide_eq_true_eq]
              exact fun hA => hbound
            · simp only [collectRec]
              rw [if_pos hg, if_pos hg, hsizeF, htypF]
              rw [if_neg hz, if_neg hz]
              rw [List.map_append]
              rw [hScol]
              rw [if_pos ht1, if_pos ht1]
              rw [hSlen, hcntF]
              rw [if_pos h16, if_pos h16]
              have hEnt : collectEntries32 (updRec diff fuel (updEntries32 diff (readU32BE data (pos + 12)) data (pos + 16)) (pos + readU32BE data pos) endp) (readU32BE data (pos + 12)) (pos + 16)
                  = collectEntries32 (updEntries32 diff (readU32BE data (pos + 12)) data (pos + 16)) (readU32BE data (pos + 12)) (pos + 16) :=
                collectEntries32_congr _ _ _ (pos + 16) (by rw [hSlen, hd1len])
                  (fun j h1 h2 => hSd1 j (by omega))
              rw [hEnt, collectEntries32_updEntries32]
          · have hupd : updRec diff (fuel + 1) data pos endp
                = updRec diff fuel data (pos + readU32BE data pos) endp := by
              simp only [updRec]
              rw [if_pos hg, if_neg hz, if_pos ht1, if_neg h16]
            obtain ⟨hSlen, hSout, hSwf, hScol, hSd1⟩ :=
              updRec_step diff fuel data data pos endp ih hz2 hend rfl
                (fun j hj => rfl) hwf2
            rw [hupd]
            have hFr : ∀ k, k < 16 →
                byteAt (updRec diff fuel data (pos + readU32BE data pos) endp) (pos + k) = byteAt data (pos + k) := by
              intro k hk
              exact hSd1 (pos + k) (by omega)
            have hsizeF : readU32BE (updRec diff fuel data (pos + readU32BE data pos) endp) pos = readU32BE data pos :=
              readU32BE_eq_of pos (fun k hk => hFr k (by omega))
            have htypF : readU32BE (updRec diff fuel data (pos + readU32BE data pos) endp) (pos + 4) = readU32BE data (pos + 4) :=
              readU32BE_eq_of (pos + 4) (fun k hk => by
                rw [show pos + 4 + k = pos + (4 + k) from by omega]
                exact hFr (4 + k) (by omega))
            have hcntF : readU32BE (updRec diff fuel data (pos + readU32BE data pos) endp) (pos + 12) = readU32BE data (pos + 12) :=
              readU32BE_eq_of (pos + 12) (fun k hk => by
                rw [show pos + 12 + k = pos + (12 + k) from by omega]
                exact hFr (12 + k) (by omega))
            refine ⟨hSlen, hSout, ?_, ?_⟩
            · simp only [wfBoxes]
              rw [if_pos hg, hsizeF, htypF]
              rw [if_neg hz]
              rw [Bool.and_eq_true]
              refine ⟨?_, hSwf⟩
              rw [if_pos ht1, hSlen]
              rw [decide_eq_true_eq]
              exact fun hA => absurd hA h16
            · simp only [collectRec]
              rw [if_pos hg, if_pos hg, hsizeF, htypF]
              rw [if_neg hz, if_neg hz]
              rw [List.map_append]
              rw [hScol]
              rw [if_pos ht1, if_pos ht1]
              rw [hSlen]
              rw [if_neg h16, if_neg h16]
              rfl
        · rw [if_neg ht1] at hwf1
          by_cases ht2 : readU32BE data (pos + 4) = boxCO64
          · rw [if_pos ht2] at hwf1
            by_cases h16 : pos + 16 ≤ data.length
            · have hbound : 16 + 8 * readU32BE data (pos + 12) ≤ readU32BE data pos :=
                of_decide_eq_true hwf1 h16
              have hupd : updRec diff (fuel + 1) data pos endp
                  = updRec diff fuel (updEntries64 diff (readU32BE data (pos + 12)) data (pos + 16)) (pos + readU32BE data pos) endp := by
                simp only [updRec]
                rw [if_pos hg, if_neg hz, if_neg ht1, if_pos ht2, if_pos h16]
              have hd1len : ((updEntries64 diff (readU32BE data (pos + 12)) data (pos + 16)) : List Nat).length = data.length :=
                length_updEntries64 _ _ _ _
              have hd1out : ∀ j, j < pos + 16 ∨ pos + readU32BE data pos ≤ j →
                  byteAt (updEntries64 diff (readU32BE data (pos + 12)) data (pos + 16)) j = byteAt data j := by
                intro j hj
                exact byteAt_updEntries64_outside diff _ _ _ _ (by omega)
              obtain ⟨hSlen, hSout, hSwf, hScol, hSd1⟩ :=
                updRec_step diff fuel data _ pos endp ih hz2 hend hd1len hd1out hwf2
              rw [hupd]
              have hFr : ∀ k, k < 16 →
                  byteAt (updRec diff fuel (updEntries64 diff (readU32BE data (pos + 12)) data (pos + 16)) (pos + readU32BE data pos) endp) (pos + k) = byteAt data (pos + k) := by
                intro k hk
                rw [hSd1 (pos + k) (by omega), hd1out (pos + k) (Or.inl (by omega))]
              have hsizeF : readU32BE (updRec diff fuel (updEntries64 diff (readU32BE data (pos + 12)) data (pos + 16)) (pos + readU32BE data pos) endp) pos = readU32BE data pos :=
                readU32BE_eq_of pos (fun k hk => hFr k (by omega))
              have htypF : readU32BE (updRec diff fuel (updEntries64 diff (readU32BE data (pos + 12)) data (pos + 16)) (pos + readU32BE data pos) endp) (pos + 4) = readU32BE data (pos + 4) :=
                readU32BE_eq_of (pos + 4) (fun k hk => by
                  rw [show pos + 4 + k = pos + (4 + k) from by omega]
                  exact hFr (4 + k) (by omega))
              have hcntF : readU32BE (updRec diff fuel (updEntries64 diff (readU32BE data (pos + 12)) data (pos + 16)) (pos + readU32BE data pos) endp) (pos + 12) = readU32BE data (pos + 12) :=
                readU32BE_eq_of (pos + 12) (fun k hk => by
                  rw [show pos + 12 + k = pos + (12 + k) from by omega]
                  exact hFr (12 + k) (by omega))
              refine ⟨hSlen, hSout, ?_, ?_⟩
              · simp only [wfBoxes]
                rw [if_pos hg, hsizeF, htypF]
                rw [if_neg hz]
                rw [Bool.and_eq_true]
                refine ⟨?_, hSwf⟩
                rw [if_neg ht1, if_pos ht2, hSlen, hcntF]
                rw [decide_eq_true_eq]
                exact fun hA => hbound
              · simp only [collectRec]
                rw [if_pos hg, if_pos hg, hsizeF, htypF]
                rw [if_neg hz, if_neg hz]
                rw [List.map_append]
                rw [hScol]
                rw [if_neg ht1, if_neg ht1, if_pos ht2, if_pos ht2]
                rw [hSlen, hcntF]
                rw [if_pos h16, if_pos h16]
                have hEnt : collectEntries64 (updRec diff fuel (updEntries64 diff (readU32BE data (pos + 12)) data (pos + 16)) (pos + readU32BE data pos) endp) (readU32BE data (pos + 12)) (pos + 16)
                    = collectEntries64 (updEntries64 diff (readU32BE data (pos + 12)) data (pos + 16)) (readU32BE data (pos + 12)) (pos + 16) :=
                  collectEntries64_congr _ _ _ (pos + 16) (by rw [hSlen, hd1len])
                    (fun j h1 h2 => hSd1 j (by omega))
                rw [hEnt, collectEntries64_updEntries64]
            · have hupd : updRec diff (fuel + 1) data pos endp
                  = updRec diff fuel data (pos + readU32BE data pos) endp := by
                simp only [updRec]
                rw [if_pos hg, if_neg hz, if_neg ht1, if_pos ht2, if_neg h16]
              obtain ⟨hSlen, hSout, hSwf, hScol, hSd1⟩ :=
                updRec_step diff fuel data data pos endp ih hz2 hend rfl
                  (fun j hj => rfl) hwf2
              rw [hupd]
              have hFr : ∀ k, k < 16 →
                  byteAt (updRec diff fuel data (pos + readU32BE data pos) endp) (pos + k) = byteAt data (pos + k) := by
                intro k hk
                exact hSd1 (pos + k) (by omega)
              have hsizeF : readU32BE (updRec diff fuel data (pos + readU32BE data pos) endp) pos = readU32BE data pos :=
                readU32BE_eq_of pos (fun k hk => hFr k (by omega))
              have htypF : readU32BE (updRec diff fuel data (pos + readU32BE data pos) endp) (pos + 4) = readU32BE data (pos + 4) :=
                readU32BE_eq_of (pos + 4) (fun k hk => by
                  rw [show pos + 4 + k = pos + (4 + k) from by omega]
                  exact hFr (4 + k) (by omega))
              have hcntF : readU32BE (updRec diff fuel data (pos + readU32BE data pos) endp) (pos + 12) = readU32BE data (pos + 12) :=
                readU32BE_eq_of (pos + 12) (fun k hk => by
                  rw [show pos + 12 + k = pos + (12 + k) from by omega]
                  exact hFr (12 + k) (by omega))
              refine ⟨hSlen, hSout, ?_, ?_⟩
              · simp only [wfBoxes]
                rw [if_pos hg, hsizeF, htypF]
                rw [if_neg hz]
                rw [Bool.and_eq_true]
                refine ⟨?_, hSwf⟩
                rw [if_neg ht1, if_pos ht2, hSlen]
                rw [decide_eq_true_eq]
                exact fun hA => absurd hA h16
              · simp only [collectRec]
                rw [if_pos hg, if_pos hg, hsizeF, htypF]
                rw [if_neg hz, if_neg hz]
                rw [List.map_append]
                rw [hScol]
                rw [if_neg ht1, if_neg ht1, if_pos ht2, if_pos ht2]
                rw [hSlen]
                rw [if_neg h16, if_neg h16]
                rfl
          · rw [if_neg ht2] at hwf1
            by_cases ht3 : readU32BE data (pos + 4) = boxTRAK ∨ readU32BE data (pos + 4) = boxMDIA
                ∨ readU32BE data (pos + 4) = boxMINF ∨ readU32BE data (pos + 4) = boxSTBL
                ∨ readU32BE data (pos + 4) = boxMOOV ∨ readU32BE data (pos + 4) = boxUDTA
            · rw [if_pos ht3] at hwf1
              obtain ⟨hClen, hCout, hCwf, hCcol⟩ :=
                ih data (pos + 8) (pos + readU32BE data pos) hwf1 (by omega)
              have hd1out : ∀ j, j < pos + 16 ∨ pos + readU32BE data pos ≤ j →
                  byteAt (updRec diff fuel data (pos + 8) (pos + readU32BE data pos)) j = byteAt data j := by
                intro j hj
                rcases hj with hj | hj
                · exact hCout j (Or.inl (by omega))
                · exact hCout j (Or.inr hj)
              have hupd : updRec diff (fuel + 1) data pos endp
                  = updRec diff fuel (updRec diff fuel data (pos + 8) (pos + readU32BE data pos)) (pos + readU32BE data pos) endp := by
                simp only [updRec]
                rw [if_pos hg, if_neg hz, if_neg ht1, if_neg ht2, if_pos ht3]
              obtain ⟨hSlen, hSout, hSwf, hScol, hSd1⟩ :=
                updRec_step diff fuel data (updRec diff fuel data (pos + 8) (pos + readU32BE data pos)) pos endp ih hz2 hend hClen hd1out hwf2
              rw [hupd]
              have hFr : ∀ k, k < 16 →
                  byteAt (updRec diff fuel (updRec diff fuel data (pos + 8) (pos + readU32BE data pos)) (pos + readU32BE data pos) endp) (pos + k) = byteAt data (pos + k) := by
                intro k hk
                rw [hSd1 (pos + k) (by omega), hd1out (pos + k) (Or.inl (by omega))]
              have hsizeF : readU32BE (updRec diff fuel (updRec diff fuel data (pos + 8) (pos + readU32BE data pos)) (pos + readU32BE data pos) endp) pos = readU32BE data pos :=
                readU32BE_eq_of pos (fun k hk => hFr k (by omega))
              have htypF : readU32BE (updRec diff fuel (updRec diff fuel data (pos + 8) (pos + readU32BE data pos)) (pos + readU32BE data pos) endp) (pos + 4) = readU32BE data (pos + 4) :=
                readU32BE_eq_of (pos + 4) (fun k hk => by
                  rw [show pos + 4 + k = pos + (4 + k) from by omega]
                  exact hFr (4 + k) (by omega))
              refine ⟨hSlen, hSout, ?_, ?_⟩
              · simp only [wfBoxes]
                rw [if_pos hg, hsizeF, htypF]
                rw [if_neg hz]
                rw [Bool.and_eq_true]
                refine ⟨?_, hSwf⟩
                rw [if_neg ht1, if_neg ht2, if_pos ht3]
                rw [wfBoxes_congr fuel (updRec diff fuel (updRec diff fuel data (pos + 8) (pos + readU32BE data pos)) (pos + readU32BE data pos) endp) (updRec diff fuel data (pos + 8) (pos + readU32BE data pos)) (pos + 8) (pos + readU32BE data pos)
                  (by rw [hSlen, hClen]) (fun j h1 h2 => hSd1 j (by omega))]
                exact hCwf
              · simp only [collectRec]
                rw [if_pos hg, if_pos hg, hsizeF, htypF]
                rw [if_neg hz, if_neg hz]
                rw [List.map_append]
                rw [hScol]
                rw [if_neg ht1, if_neg ht1, if_neg ht2, if_neg ht2, if_pos ht3, if_pos ht3]
                rw [collectRec_congr fuel (updRec diff fuel (updRec diff fuel data (pos + 8) (pos + readU32BE data pos)) (pos + readU32BE data pos) endp) (updRec diff fuel data (pos + 8) (pos + readU32BE data pos)) (pos + 8) (pos + readU32BE data pos)
                  (by rw [hSlen, hClen]) (fun j h1 h2 => hSd1 j (by omega)) hCwf]
                rw [hCcol]
            · have hupd : updRec diff (fuel + 1) data pos endp
                  = updRec diff fuel data (pos + readU32BE data pos) endp := by
                simp only [updRec]
                rw [if_pos hg, if_neg hz, if_neg ht1, if_neg ht2, if_neg ht3]
              obtain ⟨hSlen, hSout, hSwf, hScol, hSd1⟩ :=
                updRec_step diff fuel data data pos endp ih hz2 hend rfl
                  (fun j hj => rfl) hwf2
              rw [hupd]
              have hFr : ∀ k, k < 16 →
                  byteAt (updRec diff fuel data (pos + readU32BE data pos) endp) (pos + k) = byteAt data (pos + k) := by
                intro k hk
                exact hSd1 (pos + k) (by omega)
              have hsizeF : readU32BE (updRec diff fuel data (pos + readU32BE data pos) endp) pos = readU32BE data pos :=
                readU32BE_eq_of pos (fun k hk => hFr k (by omega))
              have htypF : readU32BE (updRec diff fuel data (pos + readU32BE data pos) endp) (pos + 4) = readU32BE data (pos + 4) :=
                readU32BE_eq_of (pos + 4) (fun k hk => by
                  rw [show pos + 4 + k = pos + (4 + k) from by omega]
                  exact hFr (4 + k) (by omega))
              refine ⟨hSlen, hSout, ?_, ?_⟩
              · simp only [wfBoxes]
                rw [if_pos hg, hsizeF, htypF]
                rw [if_neg hz]
                rw [Bool.and_eq_true]
                refine ⟨?_, hSwf⟩
                rw [if_neg ht1, if_neg ht2, if_neg ht3]
              · simp only [collectRec]
                rw [if_pos hg, if_pos hg, hsizeF, htypF]
                rw [if_neg hz, if_neg hz]
                rw [List.map_append]
                rw [hScol]
                rw [if_neg ht1, if_neg ht1, if_neg ht2, if_neg ht2, if_neg ht3, if_neg ht3]
                rfl


/-- C7 (confirmed): when `moov` precedes `mdat` in the original layout and
the rewrite changed the total length by `delta = result.length -
orig.length`, the offset fixup of `update_mp4_metadata` leaves every
32-bit `stco` entry and every 64-bit `co64` entry reachable inside the
walked `moov` span — discovered by recursing through
`trak`/`mdia`/`minf`/`stbl` (and `moov`/`udta`) containers — equal to its
original value plus `delta` (reduced modulo the entry width, so exactly
`original + delta` whenever that sum fits the width); when the length did
not change, the buffer is returned untouched.  The span must be
structurally well formed (`wfBoxes`): each chunk-offset table's payload
stays inside its own box. -/
theorem claim_C7 (origData result : List Nat) (moovPos mdatPos fp : Nat)
    (dh mh : BoxHeader)
    (hmdat : findBox origData boxMDAT = some (mdatPos, dh))
    (horder : mdatPos > moovPos)
    (hmoov : findBox result boxMOOV = some (fp, mh))
    (hwf : wfBoxes (result.length + 1) result (moovPos + 8) (moovPos + mh.size) = true)
    (hend : moovPos + mh.size ≤ result.length) :
    ((result.length : Int) - origData.length = 0 →
      applyOffsetFixup origData result moovPos = result)
    ∧ ((result.length : Int) - origData.length ≠ 0 →
        collectRec (result.length + 1) (applyOffsetFixup origData result moovPos)
            (moovPos + 8) (moovPos + mh.size)
          = (collectRec (result.length + 1) result (moovPos + 8) (moovPos + mh.size)).map
              (shiftEntry ((result.length : Int) - origData.length))
        ∧ ∀ e ∈ collectRec (result.length + 1) result (moovPos + 8) (moovPos + mh.size),
            0 ≤ (e.val : Int) + ((result.length : Int) - origData.length) →
            (e.val : Int) + ((result.length : Int) - origData.length)
              < (if e.wide then (2 : Int) ^ 64 else 2 ^ 32) →
            ∃ e' ∈ collectRec (result.length + 1) (applyOffsetFixup origData result moovPos)
                (moovPos + 8) (moovPos + mh.size),
              e'.pos = e.pos ∧ e'.wide = e.wide
              ∧ (e'.val : Int) = (e.val : Int) + ((result.length : Int) - origData.length)) := by
  constructor
  · intro hzero
    unfold applyOffsetFixup
    rw [hmdat]
    simp only []
    rw [if_pos horder, if_neg (fun hc => hc hzero)]
  · intro hdiff
    have happ : applyOffsetFixup origData result moovPos
        = updRec ((result.length : Int) - origData.length) (result.length + 1) result
            (moovPos + 8) (moovPos + mh.size) := by
      unfold applyOffsetFixup
      rw [hmdat]
      simp only []
      rw [if_pos horder, if_pos hdiff]
      unfold updateChunkOffsets
      rw [hmoov]
    obtain ⟨hlen, hout, hwfp, hcol⟩ :=
      updRec_spec ((result.length : Int) - origData.length) (result.length + 1) result
        (moovPos + 8) (moovPos + mh.size) hwf hend
    constructor
    · rw [happ]
      exact hcol
    · intro e he h0 hlt
      refine ⟨shiftEntry ((result.length : Int) - origData.length) e, ?_, rfl, rfl, ?_⟩
      · rw [happ, hcol]
        exact List.mem_map_of_mem _ he
      · show ((((e.val : Int) + ((result.length : Int) - origData.length)).emod
            (if e.wide then (2 : Int) ^ 64 else 2 ^ 32)).toNat : Int)
          = (e.val : Int) + ((result.length : Int) - origData.length)
        have hm : (0 : Int) < if e.wide then (2 : Int) ^ 64 else 2 ^ 32 := by
          split_ifs <;> norm_num
        have hnn : 0 ≤ ((e.val : Int) + ((result.length : Int) - origData.length)).emod
            (if e.wide then (2 : Int) ^ 64 else 2 ^ 32) :=
          Int.emod_nonneg _ (by omega)
        rw [Int.toNat_of_nonneg hnn]
        exact Int.emod_eq_of_lt h0 hlt

/-- C7 witness: a 39-byte buffer whose `moov` (28 bytes, at offset 0)
holds one `stco` table with a single entry 256, grown by 2 bytes relative
to the 37-byte original whose `mdat` sits at offset 28: after the fixup
the walked span holds exactly one entry, at byte 24, with value
256 + 2 = 258. -/
theorem claim_C7_witness :
    collectRec (([0, 0, 0, 28, 109, 111, 111, 118, 0, 0, 0, 20, 115, 116, 99, 111, 0, 0, 0, 0, 0, 0, 0, 1, 0, 0, 1, 0, 0, 0, 0, 9, 109, 100, 97, 116, 5, 7, 7] : List Nat).length + 1)
        (applyOffsetFixup [0, 0, 0, 28, 109, 111, 111, 118, 0, 0, 0, 20, 115, 116, 99, 111, 0, 0, 0, 0, 0, 0, 0, 1, 0, 0, 1, 0, 0, 0, 0, 9, 109, 100, 97, 116, 5] [0, 0, 0, 28, 109, 111, 111, 118, 0, 0, 0, 20, 115, 116, 99, 111, 0, 0, 0, 0, 0, 0, 0, 1, 0, 0, 1, 0, 0, 0, 0, 9, 109, 100, 97, 116, 5, 7, 7] 0)
        (0 + 8) (0 + (⟨28, boxMOOV, 8⟩ : BoxHeader).size)
      = [⟨24, false, 258⟩] := by
  have h := ((claim_C7 [0, 0, 0, 28, 109, 111, 111, 118, 0, 0, 0, 20, 115, 116, 99, 111, 0, 0, 0, 0, 0, 0, 0, 1, 0, 0, 1, 0, 0, 0, 0, 9, 109, 100, 97, 116, 5] [0, 0, 0, 28, 109, 111, 111, 118, 0, 0, 0, 20, 115, 116, 99, 111, 0, 0, 0, 0, 0, 0, 0, 1, 0, 0, 1, 0, 0, 0, 0, 9, 109, 100, 97, 116, 5, 7, 7] 0 28 0 ⟨9, boxMDAT, 8⟩ ⟨28, boxMOOV, 8⟩
      (by decide) (by decide) (by decide) (by decide) (by decide)).2 (by decide)).1
  exact h.trans (by decide)

end Mp3rgain
